import Mathlib

/-!
Verification of the CiteFlex citation-processing core.

This file gives a shallow embedding, in Lean 4, of the parts of the source
that the verified claims are about:

* `document_processor.py`: URL/DOI normalization, `generate_source_key`,
  `sources_match`, the `CitationHistory` ledger, the ibid recognizer
  (`IBID_PATTERN`, `is_ibid`, `extract_ibid_page`), the Phase 2
  citation-form engine of `process_document`, `RelsManager.add_hyperlink`
  together with the per-paragraph URL cache of
  `LinkActivator._process_paragraph`, and the exception barrier of
  `LinkActivator.process`.
* `author_date_engine.py`: `AuthorDateEngine.search` (threshold / oracle
  fallback logic) and `AuthorDateEngine._calculate_confidence`.
* `author_date_processor.py`: the references-heading recognizer used by
  `_update_document_references`.

Modelling conventions:

* Python strings are Lean `String`s; `Optional[str]` is `Option String`.
  Python truthiness of an optional string (`if s:`) is `strTruthy`.
* Python float arithmetic on the confidence scores is modelled exactly
  in integer hundredths (every increment in the source is a multiple of
  `0.05`, each exactly representable as a binary double, and every sum
  stays far below the precision limit, so float addition in the source is
  exact and agrees with the integer model; `0.30 ↦ 30`, the `0.6`
  threshold `↦ 60`, the `min(1.0, ·)` clamp `↦ min 100`).
* Python's `str.lower` / `str.strip` and the regex classes `\s` and `\d`
  are modelled by their ASCII cores (Python additionally handles some
  Unicode characters; all inputs relevant to the claims are ASCII).
* Fallible / effectful code is modelled with `Option` / `Except` and
  explicit state passing.
-/

/-! ## Python string primitives -/

/-- The ASCII whitespace characters matched by Python's `str.strip()` and
by the regex class `\s` (ASCII core). -/
def pySpace (c : Char) : Bool :=
  c = ' ' || c = '\t' || c = '\n' || c = '\r' || c = '\x0b' || c = '\x0c'

/-- Python `str.strip()` on a list of characters: drop leading and
trailing whitespace. -/
def pyStripList (l : List Char) : List Char :=
  (l.dropWhile pySpace).reverse.dropWhile pySpace |>.reverse

/-- Python `str.strip()`. -/
def pyStrip (s : String) : String :=
  String.mk (pyStripList s.toList)

/-- ASCII lowercasing of a single character (Python `str.lower()`'s ASCII
core). -/
def lcChar (c : Char) : Char :=
  if 'A' ≤ c ∧ c ≤ 'Z' then Char.ofNat (c.toNat + 32) else c

/-- Python `str.lower()` (ASCII core). -/
def pyLower (s : String) : String :=
  String.mk (s.toList.map lcChar)

/-- Python truthiness of an optional string: `None` and `""` are falsy. -/
def strTruthy : Option String → Bool
  | some s => s ≠ ""
  | none => false

/-- Boolean infix (substring) test on character lists: Python
`needle in hay`. -/
def infixTest (needle : List Char) : List Char → Bool
  | [] => needle.isEmpty
  | c :: rest => needle.isPrefixOf (c :: rest) || infixTest needle rest

/-- Python `needle in hay` (substring test on strings). -/
def strIn (needle hay : String) : Bool :=
  infixTest needle.toList hay.toList

/-! ## URL and DOI normalization (`document_processor.normalize_url`,
`models.normalize_doi`) -/

/-- `normalize_url` from `document_processor.py`: strip whitespace,
lowercase, remove trailing slashes, drop everything after `?`. -/
def normalize_url (url : String) : String :=
  if url = "" then ""
  else
    let normalized := pyLower (pyStrip url)
    let normalized := String.mk (normalized.toList.reverse.dropWhile (· = '/') |>.reverse)
    let normalized :=
      if normalized.toList.contains '?' then
        String.mk (normalized.toList.takeWhile (· ≠ '?'))
      else normalized
    normalized

/-- `urls_match` from `document_processor.py`: both URLs truthy and equal
after normalization. -/
def urls_match (url1 url2 : Option String) : Bool :=
  if !(strTruthy url1) || !(strTruthy url2) then false
  else normalize_url (url1.getD "") = normalize_url (url2.getD "")

/-- Modelled from the spec: `normalize_doi` lives in `models.py`, which is
not part of the provided sources.  The spec (§3, Invariants) says: "DOI
equality uses normalized form (lowercase, stripped of `doi:`/URL prefix,
trimmed)". -/
def normalize_doi (doi : String) : String :=
  let d := pyLower (pyStrip doi)
  let d := if ("https://doi.org/".toList).isPrefixOf d.toList then String.mk (d.toList.drop 16) else d
  let d := if ("http://doi.org/".toList).isPrefixOf d.toList then String.mk (d.toList.drop 15) else d
  let d := if ("doi:".toList).isPrefixOf d.toList then String.mk (d.toList.drop 4) else d
  pyStrip d

/-! ## Citation metadata and source keys -/

/-- The fields of `CitationMetadata` (from `models.py`) that the verified
code reads.  Any field may be absent. -/
structure CitationMetadata where
  doi : Option String := none
  url : Option String := none
  case_name : Option String := none
  citation : Option String := none
  title : Option String := none
  authors : List String := []
  year : Option String := none
  journal : Option String := none
  publisher : Option String := none
  volume : Option String := none
  pages : Option String := none
  raw_source : Option String := none
  deriving DecidableEq, Repr

/-- `generate_source_key` from `document_processor.py`.  Priority order:
normalized DOI, normalized URL, legal case name + citation, title with
optional first author, bare case name, else `none`.  Note the code falls
through past the DOI branch when the DOI is truthy but normalizes to the
empty string. -/
def generate_source_key : Option CitationMetadata → Option String
  | none => none
  | some m =>
    if strTruthy m.doi ∧ normalize_doi (m.doi.getD "") ≠ "" then
      some ("doi:" ++ normalize_doi (m.doi.getD ""))
    else if strTruthy m.url then
      some ("url:" ++ normalize_url (m.url.getD ""))
    else if strTruthy m.case_name ∧ strTruthy m.citation then
      some ("legal:" ++ pyStrip (pyLower (m.case_name.getD "")) ++ "|" ++
        pyStrip (pyLower (m.citation.getD "")))
    else if strTruthy m.title then
      some ("title:" ++ pyStrip (pyLower (m.title.getD "")) ++
        (match m.authors with
         | [] => ""
         | a :: _ => "|author:" ++ pyStrip (pyLower a)))
    else if strTruthy m.case_name then
      some ("case:" ++ pyStrip (pyLower (m.case_name.getD "")))
    else none

/-- `sources_match` from `document_processor.py`: both keys non-null and
equal. -/
def sources_match (m1 m2 : Option CitationMetadata) : Bool :=
  match generate_source_key m1, generate_source_key m2 with
  | some k1, some k2 => k1 = k2
  | _, _ => false

example : normalize_url "https://Example.com/" = "https://example.com" := by decide
example : normalize_url "https://example.org/a?utm=x" = "https://example.org/a" := by decide
example : generate_source_key (some { doi := some " " }) = none := by decide
example : generate_source_key (some { title := some "Foo", authors := ["Jones"] })
    = some "title:foo|author:jones" := by decide

/-! ## Citation history (`CitationHistory` in `document_processor.py`) -/

/-- `CitationHistoryEntry` from `document_processor.py`. -/
structure CitationHistoryEntry where
  metadata : Option CitationMetadata
  formatted : String
  source_key : Option String
  note_number : Nat
  deriving DecidableEq, Repr

/-- `CitationHistory` state: `previous`, the `all_sources` insertion-order
map (Python dict, modelled as an association list), and `note_counter`. -/
structure CitationHistory where
  previous : Option CitationHistoryEntry := none
  all_sources : List (String × CitationHistoryEntry) := []
  note_counter : Nat := 0
  deriving DecidableEq, Repr

/-- `CitationHistory.__init__`. -/
def CitationHistory.empty : CitationHistory := {}

/-- `CitationHistory.add`: increment the counter, build the entry, set
`previous`, and insert into `all_sources` iff the key is truthy and not
yet present (Python `if source_key and source_key not in self.all_sources`). -/
def CitationHistory.add (h : CitationHistory) (metadata : Option CitationMetadata)
    (formatted : String) : CitationHistory :=
  let note_counter := h.note_counter + 1
  let source_key := generate_source_key metadata
  let entry : CitationHistoryEntry :=
    { metadata := metadata, formatted := formatted,
      source_key := source_key, note_number := note_counter }
  let all_sources :=
    match source_key with
    | some k =>
      if k ≠ "" ∧ (h.all_sources.lookup k).isNone then h.all_sources ++ [(k, entry)]
      else h.all_sources
    | none => h.all_sources
  { previous := some entry, all_sources := all_sources, note_counter := note_counter }

/-- `CitationHistory.is_same_as_previous`. -/
def CitationHistory.is_same_as_previous (h : CitationHistory)
    (metadata : Option CitationMetadata) : Bool :=
  match h.previous with
  | none => false
  | some prev => sources_match metadata prev.metadata

/-- `CitationHistory.has_been_cited_before`. -/
def CitationHistory.has_been_cited_before (h : CitationHistory)
    (metadata : Option CitationMetadata) : Bool :=
  match generate_source_key metadata with
  | none => false
  | some k => (h.all_sources.lookup k).isSome

/-- `CitationHistory.get_previous_metadata`. -/
def CitationHistory.get_previous_metadata (h : CitationHistory) : Option CitationMetadata :=
  match h.previous with
  | some prev => prev.metadata
  | none => none

/-- `CitationHistory.get_previous_url` (`None` when there is no previous
entry or its metadata is `None`). -/
def CitationHistory.get_previous_url (h : CitationHistory) : Option String :=
  match h.previous with
  | some prev =>
    match prev.metadata with
    | some m => m.url
    | none => none
  | none => none

/-- Run a sequence of `add` calls on a fresh history. -/
def runAdds (ops : List (Option CitationMetadata × String)) : CitationHistory :=
  ops.foldl (fun h op => h.add op.1 op.2) CitationHistory.empty

/-- The first element of `ops` (counting note ordinals from `c`) whose
source key is `k`, as the history entry that `CitationHistory.add` would
build for it. -/
def findFirstEntry (k : String) : List (Option CitationMetadata × String) → Nat →
    Option CitationHistoryEntry
  | [], _ => none
  | (m, f) :: rest, c =>
    if generate_source_key m = some k then
      some { metadata := m, formatted := f, source_key := some k, note_number := c + 1 }
    else findFirstEntry k rest (c + 1)

/-! ## The Phase 2 citation-form engine (`process_document` in
`document_processor.py`) -/

/-- The per-note record produced by Phase 1 (`fetch_metadata_for_note`). -/
structure FetchedNote where
  note_id : String
  note_type : String
  original_text : String
  is_explicit_ibid : Bool
  ibid_page : Option String
  metadata : Option CitationMetadata
  formatted : Option String
  current_url : Option String
  error : Option String
  deriving DecidableEq, Repr

/-- `ProcessedCitation` from `document_processor.py`. -/
structure ProcessedCitation where
  original : String
  formatted : String
  metadata : Option CitationMetadata
  url : Option String
  success : Bool
  error : Option String := none
  citation_form : String := "full"
  deriving DecidableEq, Repr

/-- The state threaded through Phase 2: the citation history, the note
writes performed on the document (note id paired with the written
content), and the results log. -/
structure EngineState where
  history : CitationHistory := {}
  writes : List (String × String) := []
  results : List ProcessedCitation := []
  deriving DecidableEq, Repr

/-- One iteration of the Phase 2 loop of `process_document`, processing a
single fetched note.  `fmtIbid` stands for `BaseFormatter.format_ibid`
and `fmtShort` for `formatter.format_short` (the style formatters live
outside the verified sources and are passed in as parameters). -/
def processNote (fmtIbid : Option String → String)
    (fmtShort : Option CitationMetadata → String)
    (st : EngineState) (data : FetchedNote) : EngineState :=
  -- Case 1: explicit ibid reference
  if data.is_explicit_ibid then
    match st.history.get_previous_metadata with
    | none =>
      { st with results := st.results ++
          [{ original := data.original_text, formatted := data.original_text,
             metadata := none, url := none, success := false,
             error := some "ibid reference but no previous citation found",
             citation_form := "ibid" }] }
    | some prev_metadata =>
      let formatted := fmtIbid data.ibid_page
      { st with
        writes := st.writes ++ [(data.note_id, formatted)],
        results := st.results ++
          [{ original := data.original_text, formatted := formatted,
             metadata := some prev_metadata, url := st.history.get_previous_url,
             success := true, citation_form := "ibid" }] }
  -- Case 2: API lookup failed
  else if data.metadata.isNone || !(strTruthy data.formatted) then
    { st with results := st.results ++
        [{ original := data.original_text, formatted := data.original_text,
           metadata := none, url := none, success := false,
           error := some ((data.error).getD "No metadata found"),
           citation_form := "full" }] }
  -- Case 3: same URL as previous → ibid (no history push)
  else if strTruthy data.current_url ∧ strTruthy st.history.get_previous_url ∧
      urls_match data.current_url st.history.get_previous_url then
    let formatted := fmtIbid none
    { st with
      writes := st.writes ++ [(data.note_id, formatted)],
      results := st.results ++
        [{ original := data.original_text, formatted := formatted,
           metadata := st.history.get_previous_metadata, url := data.current_url,
           success := true, citation_form := "ibid" }] }
  -- Case 4: same source as previous → ibid (with history push)
  else if st.history.is_same_as_previous data.metadata then
    let formatted := fmtIbid none
    { history := st.history.add data.metadata formatted,
      writes := st.writes ++ [(data.note_id, formatted)],
      results := st.results ++
        [{ original := data.original_text, formatted := formatted,
           metadata := data.metadata, url := data.current_url,
           success := true, citation_form := "ibid" }] }
  -- Case 5: previously cited → short form (with history push)
  else if st.history.has_been_cited_before data.metadata then
    let formatted := fmtShort data.metadata
    { history := st.history.add data.metadata formatted,
      writes := st.writes ++ [(data.note_id, formatted)],
      results := st.results ++
        [{ original := data.original_text, formatted := formatted,
           metadata := data.metadata, url := data.current_url,
           success := true, citation_form := "short" }] }
  -- Case 6: new source → full citation (with history push)
  else
    let full_formatted := data.formatted.getD ""
    { history := st.history.add data.metadata full_formatted,
      writes := st.writes ++ [(data.note_id, full_formatted)],
      results := st.results ++
        [{ original := data.original_text, formatted := full_formatted,
           metadata := data.metadata, url := data.current_url,
           success := true, citation_form := "full" }] }

/-- The whole Phase 2 loop over the fetched notes. -/
def runEngine (fmtIbid : Option String → String)
    (fmtShort : Option CitationMetadata → String)
    (notes : List FetchedNote) (st : EngineState) : EngineState :=
  notes.foldl (processNote fmtIbid fmtShort) st

/-! ## Relationship sidecar (`RelsManager` in `document_processor.py`) -/

/-- One relationship entry of a `.rels` sidecar. -/
structure RelEntry where
  rtype : String
  target : String
  mode : String
  deriving DecidableEq, Repr

/-- The hyperlink relationship type constant. -/
def HYPERLINK_TYPE : String :=
  "http://schemas.openxmlformats.org/officeDocument/2006/relationships/hyperlink"

/-- The mutable state of a `RelsManager`: the `rId → entry` map, the
`url → rId` map (both Python dicts, modelled as insertion-ordered
association lists), and the next free numeric id.  A sidecar that does
not yet exist loads as the empty state with `next_id = 1`. -/
structure RelsState where
  relationships : List (String × RelEntry) := []
  url_to_rid : List (String × String) := []
  next_id : Nat := 1
  deriving DecidableEq, Repr

/-- `RelsManager.add_hyperlink`: reuse the rId of an exactly equal URL,
otherwise mint `rId<next_id>` and record the new relationship. -/
def add_hyperlink (st : RelsState) (url : String) : String × RelsState :=
  match st.url_to_rid.lookup url with
  | some rid => (rid, st)
  | none =>
    let rid := "rId" ++ toString st.next_id
    (rid,
     { relationships := st.relationships ++
         [(rid, { rtype := HYPERLINK_TYPE, target := url, mode := "External" })],
       url_to_rid := st.url_to_rid ++ [(url, rid)],
       next_id := st.next_id + 1 })

/-- The URL → rId step of `LinkActivator._process_paragraph`: consult the
per-file `processed_urls` cache first, then `RelsManager.add_hyperlink`.
Returns the rId together with the updated cache and sidecar state. -/
def ridForUrl (cache : List (String × String)) (st : RelsState) (clean_url : String) :
    String × List (String × String) × RelsState :=
  match cache.lookup clean_url with
  | some rid => (rid, cache, st)
  | none =>
    let (rid, st') := add_hyperlink st clean_url
    (rid, cache ++ [(clean_url, rid)], st')

/-- Process a list of (already punctuation-trimmed) URLs in order, as the
link activator encounters them in a document part. -/
def processUrls : List String → List (String × String) → RelsState →
    List String × List (String × String) × RelsState
  | [], cache, st => ([], cache, st)
  | u :: rest, cache, st =>
    let (rid, cache', st') := ridForUrl cache st u
    let (rids, cache'', st'') := processUrls rest cache' st'
    (rid :: rids, cache'', st'')

/-! ## The exception barrier of `LinkActivator.process` -/

/-- A `BytesIO` buffer: content bytes plus a read position. -/
structure BytesBuf where
  data : List Nat
  pos : Nat
  deriving DecidableEq, Repr

/-- `LinkActivator.process`: the whole extract / rewrite / repackage body
is modelled as a fallible transformation `attempt` of the content bytes
(its exceptions are `Except.error` values).  On success the rewound output
buffer is returned; on any exception the original buffer is rewound
(`docx_buffer.seek(0)`) and returned with its bytes untouched. -/
def LinkActivator_process (buf : BytesBuf)
    (attempt : List Nat → Except String (List Nat)) : BytesBuf :=
  match attempt buf.data with
  | .ok out => { data := out, pos := 0 }
  | .error _ => { data := buf.data, pos := 0 }

/-! ## References-heading recognition
(`AuthorDateProcessor._update_document_references`) -/

/-- Matching of the anchored regex
`^References?\s*$|^Bibliography\s*$|^References Cited\s*$` (IGNORECASE)
against an already lowercased character list. -/
def headingReMatch (l : List Char) : Bool :=
  (match ("reference".toList).isPrefixOf l, l.drop 9 with
   | true, rest =>
     rest.all pySpace ||
       (match rest with
        | c :: rest2 => c = 's' && rest2.all pySpace
        | [] => false)
   | false, _ => false) ||
  (("bibliography".toList).isPrefixOf l ∧ (l.drop 12).all pySpace) ||
  (("references cited".toList).isPrefixOf l ∧ (l.drop 16).all pySpace)

/-- The existing-references-heading test in
`_update_document_references`: the paragraph text is stripped and matched
case-insensitively against the heading regex. -/
def is_references_heading (para_text : String) : Bool :=
  headingReMatch (pyLower (pyStrip para_text)).toList

example : is_references_heading "  References  " = true := by decide
example : is_references_heading "Reference" = true := by decide
example : is_references_heading "references cited" = true := by decide
example : is_references_heading "Reference list" = false := by decide

/-! ## The author-date search federation (`AuthorDateEngine` in
`author_date_engine.py`)

Confidence scores are Python floats whose increments are all exact
multiples of `0.05`; they are modelled exactly in integer hundredths
(`0.30 ↦ 30`, the `0.6` acceptance threshold ↦ `60`, the `min(1.0, ·)`
clamp ↦ `min 100`). -/

/-- `SearchResult` from `author_date_engine.py` (confidence in integer
hundredths). -/
structure SearchResult where
  metadata : CitationMetadata
  confidence : Nat
  match_reason : String
  deriving DecidableEq, Repr

/-- Insertion of a result into a list already sorted by descending
confidence. -/
def insertByConf (x : SearchResult) : List SearchResult → List SearchResult
  | [] => [x]
  | y :: ys => if y.confidence < x.confidence then x :: y :: ys else y :: insertByConf x ys

/-- `results.sort(reverse=True)`: sort by descending confidence (the
order among equal confidences is immaterial to the verified claims). -/
def sortByConf (l : List SearchResult) : List SearchResult :=
  l.foldr insertByConf []

/-- The `raw_source` echo that `search` stamps on the returned metadata. -/
def rawEcho (author year : String) : String :=
  "(" ++ author ++ ", " ++ year ++ ")"

/-- The decision logic of `AuthorDateEngine.search`.  `provider` is the
list of `SearchResult`s collected from the parallel provider fan-out and
`claude` the list the contextual-guessing oracle (`_search_claude`) would
return.  The second component records whether the oracle was invoked.
Mirrors the source: an early `None` for the year sentinel `"n.d."`
(before any provider is consulted); otherwise sort, accept the top
provider result iff its confidence is `≥ 0.6`, and only in the remaining
cases extend with the oracle results and return the best overall (or
`None` when there are no results at all). -/
def searchModel (author year : String) (provider claude : List SearchResult) :
    Option CitationMetadata × Bool :=
  if year = "n.d." then (none, false)
  else
    match sortByConf provider with
    | best :: rest =>
      if best.confidence ≥ 60 then
        (some { best.metadata with raw_source := some (rawEcho author year) }, false)
      else
        match sortByConf ((best :: rest) ++ claude) with
        | b :: _ => (some { b.metadata with raw_source := some (rawEcho author year) }, true)
        | [] => (none, true)
    | [] =>
      match sortByConf claude with
      | b :: _ => (some { b.metadata with raw_source := some (rawEcho author year) }, true)
      | [] => (none, true)

/-- Parse a nonempty run of decimal digits. -/
def digitsToNat? (l : List Char) : Option Nat :=
  if l.isEmpty then none
  else l.foldl (fun acc c =>
    match acc with
    | some a => if '0' ≤ c ∧ c ≤ '9' then some (a * 10 + (c.toNat - 48)) else none
    | none => none) (some 0)

/-- Python `int(s)` on a string: optional surrounding whitespace, optional
sign, decimal digits; `none` models `ValueError`. -/
def pyInt? (s : String) : Option Int :=
  match pyStripList s.toList with
  | '-' :: rest => (digitsToNat? rest).map (fun n => -(n : Int))
  | '+' :: rest => (digitsToNat? rest).map (fun n => (n : Int))
  | l => (digitsToNat? l).map (fun n => (n : Int))

/-- `AuthorDateEngine._calculate_confidence`: sequential accumulation of
the score exactly as in the source (in hundredths), clamped by the final
`min(1.0, ·)`. -/
def calculate_confidence (metadata : CitationMetadata) (author year : String)
    (second_author : Option String) : Nat :=
  let confidence : Nat := 0
  -- year match
  let confidence :=
    if metadata.year = some year then confidence + 30
    else if strTruthy metadata.year then
      match pyInt? (metadata.year.getD ""), pyInt? year with
      | some my, some qy => if (my - qy).natAbs ≤ 1 then confidence + 20 else confidence
      | _, _ => confidence
    else confidence
  -- author match
  let author_lower := pyLower author
  let confidence :=
    if metadata.authors ≠ [] then
      let authors_lower := metadata.authors.map pyLower
      let confidence :=
        if authors_lower.any (fun a => strIn author_lower a) then confidence + 30
        else confidence
      let confidence :=
        if strTruthy second_author then
          if authors_lower.any (fun a => strIn (pyLower (second_author.getD "")) a) then
            confidence + 15
          else confidence
        else confidence
      confidence
    else confidence
  -- DOI presence
  let confidence := if strTruthy metadata.doi then confidence + 15 else confidence
  -- completeness bonus
  let completeness : Nat :=
    (if strTruthy metadata.title then 1 else 0) +
    (if strTruthy metadata.journal ∨ strTruthy metadata.publisher then 1 else 0) +
    (if strTruthy metadata.volume ∨ strTruthy metadata.pages then 1 else 0)
  let confidence := confidence + completeness * 5
  min 100 confidence

example :
    calculate_confidence
      { year := some "1977", authors := ["Bandura, A."], doi := some "10.1/x",
        title := some "T", journal := some "J", volume := some "1" }
      "Bandura" "1977" none = 90 := by decide

example :
    calculate_confidence { year := some "1978", authors := ["Smith, J."] }
      "smith" "1977" none = 50 := by decide

/-! ## The ibid recognizer (`IBID_PATTERN`, `is_ibid`,
`extract_ibid_page` in `document_processor.py`)

The source pattern (compiled with `re.IGNORECASE` and applied with
`re.match`, i.e. anchored, to the stripped note text) is

  `^(?:ibid\.?|ibidem\.?|id\.?)(?:\s*(?:at\s+|[,.]?\s*)?(?:pp?\.?\s*)?(\d+[\-–]?\d*)?)?\.?$`

It is embedded as a backtracking matcher over `List Char` that enumerates
candidate continuations of every sub-pattern in the engine's preference
order (alternatives left to right, quantifiers greedy) and commits to the
first overall success, which reproduces both the accepted language and
the group-1 capture.  Case-insensitivity is modelled by lowercasing the
input and using the lowercase pattern (group 1 consists of digits and
dashes only, so lowercasing does not affect the capture).  The outer
optional group `(?:...)?` is redundant for both acceptance and capture
because every sub-pattern inside it can match the empty string. -/

/-- The regex class `\d` (ASCII core). -/
def digitChar (c : Char) : Bool := '0' ≤ c ∧ c ≤ '9'

/-- The regex class `[\-–]`. -/
def dashChar (c : Char) : Bool := c = '-' ∨ c = '–'

/-- Return the first success of `f` over a candidate list. -/
def firstSome {α β : Type} : List α → (α → Option β) → Option β
  | [], _ => none
  | a :: as, f =>
    match f a with
    | some b => some b
    | none => firstSome as f

/-- `l = w ++ r`?  Strip the literal prefix `w`. -/
def stripPre : List Char → List Char → Option (List Char)
  | [], l => some l
  | _ :: _, [] => none
  | a :: ws, b :: ls => if a = b then stripPre ws ls else none

/-- Candidate continuations after a literal. -/
def prefCands (w : String) (l : List Char) : List (List Char) :=
  match stripPre w.toList l with
  | some r => [r]
  | none => []

/-- Candidate continuations of `cls*` (greedy: longest consumption
first). -/
def starSplits (p : Char → Bool) : List Char → List (List Char)
  | [] => [[]]
  | c :: rest => if p c then starSplits p rest ++ [c :: rest] else [c :: rest]

/-- Candidate continuations of `cls+` (greedy). -/
def plusSplits (p : Char → Bool) : List Char → List (List Char)
  | [] => []
  | c :: rest => if p c then starSplits p rest else []

/-- Candidate (consumed, rest) pairs of `cls*` (greedy). -/
def starTake (p : Char → Bool) : List Char → List (List Char × List Char)
  | [] => [([], [])]
  | c :: rest =>
    if p c then ((starTake p rest).map (fun t => (c :: t.1, t.2))) ++ [([], c :: rest)]
    else [([], c :: rest)]

/-- Candidate (consumed, rest) pairs of `cls+` (greedy). -/
def plusTake (p : Char → Bool) : List Char → List (List Char × List Char)
  | [] => []
  | c :: rest => if p c then (starTake p rest).map (fun t => (c :: t.1, t.2)) else []

/-- Candidate continuations of the head alternation
`ibid\.?|ibidem\.?|id\.?` (alternatives left to right, optional dot
greedy). -/
def headSplits (l : List Char) : List (List Char) :=
  prefCands "ibid." l ++ prefCands "ibid" l ++ prefCands "ibidem." l ++
    prefCands "ibidem" l ++ prefCands "id." l ++ prefCands "id" l

/-- Candidate continuations of the `at\s+` separator alternative. -/
def sepAtCands (l : List Char) : List (List Char) :=
  match stripPre "at".toList l with
  | some r => plusSplits pySpace r
  | none => []

/-- Candidate continuations of a consumed `[,.]` class character followed
by `\s*`. -/
def sepClassCands : List Char → List (List Char)
  | [] => []
  | c :: rest => if c = ',' ∨ c = '.' then starSplits pySpace rest else []

/-- Candidate continuations of the optional separator
`(?:at\s+|[,.]?\s*)?`. -/
def sepSplits (l : List Char) : List (List Char) :=
  sepAtCands l ++ sepClassCands l ++ starSplits pySpace l ++ [l]

/-- Candidate continuations of the optional page marker
`(?:pp?\.?\s*)?`. -/
def pgrpSplits (l : List Char) : List (List Char) :=
  (prefCands "pp." l).flatMap (starSplits pySpace) ++
    (prefCands "pp" l).flatMap (starSplits pySpace) ++
    (prefCands "p." l).flatMap (starSplits pySpace) ++
    (prefCands "p" l).flatMap (starSplits pySpace) ++ [l]

/-- Candidate (consumed, rest) pairs of `[\-–]?` (greedy). -/
def dashTake : List Char → List (List Char × List Char)
  | [] => [([], [])]
  | c :: rest =>
    if dashChar c then [([c], rest), ([], c :: rest)] else [([], c :: rest)]

/-- Candidate (rest, group 1) pairs of the optional captured page range
`(\d+[\-–]?\d*)?`. -/
def pageSplits (l : List Char) : List (List Char × Option (List Char)) :=
  ((plusTake digitChar l).flatMap (fun d1 =>
    (dashTake d1.2).flatMap (fun ds =>
      (starTake digitChar ds.2).map (fun d2 =>
        (d2.2, some (d1.1 ++ ds.1 ++ d2.1)))))) ++ [(l, none)]

/-- The final `\.?$`. -/
def endOk (l : List Char) : Bool := l = [] ∨ l = ['.']

/-- The anchored match of `IBID_PATTERN` against a (stripped, lowered)
character list: `none` if there is no match, otherwise the group-1
capture. -/
def ibidMatchList (l : List Char) : Option (Option (List Char)) :=
  firstSome (headSplits l) (fun l1 =>
    firstSome (starSplits pySpace l1) (fun l2 =>
      firstSome (sepSplits l2) (fun l3 =>
        firstSome (pgrpSplits l3) (fun l4 =>
          firstSome (pageSplits l4) (fun pr =>
            if endOk pr.1 then some pr.2 else none)))))

/-- `IBID_PATTERN.match(text.strip())` (with `re.IGNORECASE`). -/
def pyIbidMatch (text : String) : Option (Option (List Char)) :=
  ibidMatchList (pyLower (pyStrip text)).toList

/-- `is_ibid` from `document_processor.py`: falsy text is rejected, then
the stripped text is matched against `IBID_PATTERN`. -/
def is_ibid (text : String) : Bool :=
  if text = "" then false
  else (pyIbidMatch text).isSome

/-- `extract_ibid_page` from `document_processor.py`: the stripped group-1
capture when the match exists and the capture is truthy, else `None`. -/
def extract_ibid_page (text : String) : Option String :=
  if text = "" then none
  else
    match pyIbidMatch text with
    | some (some pg) => if ¬pg.isEmpty then some (pyStrip (String.mk pg)) else none
    | _ => none

example : is_ibid "Ibid." = true := by decide
example : is_ibid "ibid" = true := by decide
example : is_ibid "IBID" = true := by decide
example : is_ibid "ibidem" = true := by decide
example : is_ibid "Id." = true := by decide
example : is_ibid "idem" = false := by decide
example : is_ibid "ibid, 45" = true := by decide
example : is_ibid "Ibid., 123-125" = true := by decide
example : is_ibid "Id. at 789" = true := by decide
example : is_ibid "ibid., pp. 12-15" = true := by decide
example : is_ibid "  ibid.  " = true := by decide
example : is_ibid "ibidem." = true := by decide
example : is_ibid "ibid.." = true := by decide
example : is_ibid "" = false := by decide
example : is_ibid "see ibid" = false := by decide
example : is_ibid "ibid at" = false := by decide
example : is_ibid "ibid, p 45" = true := by decide
example : is_ibid "ibid 123-" = true := by decide
example : extract_ibid_page "ibid, 45" = some "45" := by decide
example : extract_ibid_page "ibid., 123-125" = some "123-125" := by decide
example : extract_ibid_page "Id. at 789" = some "789" := by decide
example : extract_ibid_page "ibid., pp. 12-15" = some "12-15" := by decide
example : extract_ibid_page "ibid." = none := by decide
example : extract_ibid_page "ibid" = none := by decide

/-- The ibid grammar exactly as the specification states it: one of
`ibid`, `ibid.`, `ibidem`, `id`, `id.`, optionally followed by one of
comma, period, or `at`, then an optional `p.`/`pp.`, then an optional
page range like `45`, `123-125` or `123–125`, optionally ending with
`.`; whitespace may separate the parts; case-insensitive after
stripping.  (This definition follows the specification's words; it is
compared against the source-derived `is_ibid`.) -/
def claim_ibid_grammar (s : String) : Bool :=
  let l := (pyLower (pyStrip s)).toList
  (prefCands "ibid." l ++ prefCands "ibid" l ++ prefCands "ibidem" l ++
      prefCands "id." l ++ prefCands "id" l).any (fun l1 =>
    (starSplits pySpace l1).any (fun l2 =>
      (prefCands "," l2 ++ prefCands "." l2 ++ prefCands "at" l2 ++ [l2]).any (fun l3 =>
        (starSplits pySpace l3).any (fun l4 =>
          (prefCands "pp." l4 ++ prefCands "p." l4 ++ [l4]).any (fun l5 =>
            (starSplits pySpace l5).any (fun l6 =>
              (claimRangeCands l6).any (fun l7 =>
                (prefCands "." l7 ++ [l7]).any (fun l8 => l8.isEmpty))))))))
where
  /-- Continuations after an optional page range `d+` or `d+ dash d+`. -/
  claimRangeCands (l : List Char) : List (List Char) :=
    ((plusTake digitChar l).flatMap (fun d1 =>
      d1.2 :: (match d1.2 with
               | c :: r =>
                 if dashChar c then (plusTake digitChar r).map (fun t => t.2) else []
               | [] => ([] : List (List Char))))) ++ [l]

example : claim_ibid_grammar "ibid., 45" = true := by decide
example : claim_ibid_grammar "Id. at 789" = true := by decide
example : claim_ibid_grammar "ibid at" = true := by decide
example : claim_ibid_grammar "ibid, p 45" = false := by decide
example : claim_ibid_grammar "see ibid" = false := by decide

/-! ## Language characterization of `IBID_PATTERN`

The decomposition predicate below is a plain-language reading of the
pattern's components; the matcher is proved sound and complete for it,
and the group-1 capture is proved unique across decompositions. -/

/-- The six head literals `ibid\.?|ibidem\.?|id\.?`. -/
def headOkP (h : List Char) : Prop :=
  h = "ibid".toList ∨ h = "ibid.".toList ∨ h = "ibidem".toList ∨
    h = "ibidem.".toList ∨ h = "id".toList ∨ h = "id.".toList

/-- All-whitespace chunk. -/
def wsOkP (w : List Char) : Prop := ∀ c ∈ w, pySpace c

/-- The optional separator `(?:at\s+|[,.]?\s*)?`: all-whitespace, or a
comma/period followed by whitespace, or `at` followed by at least one
whitespace character. -/
def sepOkP (s : List Char) : Prop :=
  (∀ c ∈ s, pySpace c) ∨
    (∃ w, wsOkP w ∧ (s = ',' :: w ∨ s = '.' :: w)) ∨
    (∃ w, wsOkP w ∧ w ≠ [] ∧ s = 'a' :: 't' :: w)

/-- The optional page marker `(?:pp?\.?\s*)?`: `p` or `pp`, an optional
period, then whitespace. -/
def pOkP (p : List Char) : Prop :=
  p = [] ∨ ∃ core dot w, (core = ['p'] ∨ core = ['p', 'p']) ∧
    (dot = [] ∨ dot = ['.']) ∧ wsOkP w ∧ p = core ++ dot ++ w

/-- A nonempty page range `\d+[\-–]?\d*`: digits, an optional dash,
optionally more digits. -/
def pageOkP (pg : List Char) : Prop :=
  ∃ d1 ds d2, d1 ≠ [] ∧ (∀ c ∈ d1, digitChar c) ∧
    (ds = [] ∨ ds = ['-'] ∨ ds = ['–']) ∧ (∀ c ∈ d2, digitChar c) ∧
    pg = d1 ++ ds ++ d2

/-- The optional final period `\.?`. -/
def dotOkP (d : List Char) : Prop := d = [] ∨ d = ['.']

/-- A full decomposition of a (stripped, lowered) note text into the
components of `IBID_PATTERN`, with page range `pg` (empty when the
optional group-1 range is absent). -/
def IbidDecomp (l : List Char) (pg : List Char) : Prop :=
  ∃ h w s p d, headOkP h ∧ wsOkP w ∧ sepOkP s ∧ pOkP p ∧
    (pg = [] ∨ pageOkP pg) ∧ dotOkP d ∧ l = h ++ w ++ s ++ p ++ pg ++ d

/-! ### Soundness, completeness and capture uniqueness of the matcher -/

theorem firstSome_eq_some {α β : Type} {L : List α} {f : α → Option β} {b : β}
    (h : firstSome L f = some b) : ∃ a ∈ L, f a = some b := by
  induction L with
  | nil => simp [firstSome] at h
  | cons a as ih =>
    rw [firstSome] at h
    cases hfa : f a with
    | some b' =>
      rw [hfa] at h
      exact ⟨a, List.mem_cons_self a as, by simpa [hfa] using h⟩
    | none =>
      rw [hfa] at h
      obtain ⟨a', ha', hfa'⟩ := ih h
      exact ⟨a', List.mem_cons_of_mem _ ha', hfa'⟩

theorem firstSome_isSome {α β : Type} {L : List α} {f : α → Option β} {a : α} {b : β}
    (ha : a ∈ L) (hfa : f a = some b) : (firstSome L f).isSome := by
  induction L with
  | nil => simp at ha
  | cons x xs ih =>
    rw [firstSome]
    cases hfx : f x with
    | some b' => simp
    | none =>
      rcases List.mem_cons.mp ha with rfl | ha'
      · rw [hfa] at hfx; cases hfx
      · exact ih ha'

theorem stripPre_sound : ∀ {w l r : List Char}, stripPre w l = some r → l = w ++ r
  | [], l, r, h => by
    simp [stripPre] at h
    simp [h]
  | _ :: _, [], r, h => by simp [stripPre] at h
  | a :: ws, b :: ls, r, h => by
    rw [stripPre] at h
    by_cases hab : a = b
    · subst hab
      simp only [if_true] at h
      simp [stripPre_sound h]
    · simp [hab] at h

theorem stripPre_complete : ∀ (w r : List Char), stripPre w (w ++ r) = some r
  | [], r => by simp [stripPre]
  | a :: ws, r => by simp [stripPre, stripPre_complete ws r]

theorem prefCands_sound {w : String} {l r : List Char}
    (h : r ∈ prefCands w l) : l = w.toList ++ r := by
  unfold prefCands at h
  cases hs : stripPre w.toList l with
  | some r' => rw [hs] at h; simp at h; exact h ▸ stripPre_sound hs
  | none => rw [hs] at h; simp at h

theorem prefCands_complete (w : String) (r : List Char) :
    r ∈ prefCands w (w.toList ++ r) := by
  unfold prefCands
  rw [stripPre_complete]
  exact List.mem_singleton.mpr rfl

theorem starSplits_sound {p : Char → Bool} : ∀ {l r : List Char},
    r ∈ starSplits p l → ∃ w, (∀ c ∈ w, p c) ∧ l = w ++ r
  | [], r, h => by
    simp [starSplits] at h
    exact ⟨[], by simp, by simp [h]⟩
  | c :: rest, r, h => by
    rw [starSplits] at h
    by_cases hc : p c
    · simp only [hc, if_true, List.mem_append, List.mem_singleton] at h
      rcases h with h | h
      · obtain ⟨w, hw, hrest⟩ := starSplits_sound h
        exact ⟨c :: w, by simpa [hc] using hw, by simp [hrest]⟩
      · exact ⟨[], by simp, by simp [h]⟩
    · simp [hc] at h
      exact ⟨[], by simp, by simp [h]⟩

theorem starSplits_complete {p : Char → Bool} : ∀ {w : List Char} (r : List Char),
    (∀ c ∈ w, p c) → r ∈ starSplits p (w ++ r)
  | [], r, _ => by
    cases r with
    | nil => simp [starSplits]
    | cons c rest =>
      rw [List.nil_append, starSplits]
      by_cases hc : p c
      · simp [hc]
      · simp [hc]
  | c :: w', r, hw => by
    have hc : p c := hw c (List.mem_cons_self _ _)
    rw [List.cons_append, starSplits]
    simp only [hc, if_true]
    exact List.mem_append_left _
      (starSplits_complete r (fun x hx => hw x (List.mem_cons_of_mem _ hx)))

theorem plusSplits_sound {p : Char → Bool} {l r : List Char}
    (h : r ∈ plusSplits p l) : ∃ w, w ≠ [] ∧ (∀ c ∈ w, p c) ∧ l = w ++ r := by
  cases l with
  | nil => simp [plusSplits] at h
  | cons c rest =>
    rw [plusSplits] at h
    by_cases hc : p c
    · simp only [hc, if_true] at h
      obtain ⟨w, hw, hrest⟩ := starSplits_sound h
      exact ⟨c :: w, by simp, by simpa [hc] using hw, by simp [hrest]⟩
    · simp [hc] at h

theorem plusSplits_complete {p : Char → Bool} {w : List Char} (r : List Char)
    (hne : w ≠ []) (hw : ∀ c ∈ w, p c) : r ∈ plusSplits p (w ++ r) := by
  cases w with
  | nil => exact absurd rfl hne
  | cons c w' =>
    have hc : p c := hw c (List.mem_cons_self _ _)
    rw [List.cons_append, plusSplits]
    simp only [hc, if_true]
    exact starSplits_complete r (fun x hx => hw x (List.mem_cons_of_mem _ hx))

theorem starTake_sound {p : Char → Bool} : ∀ {l t r : List Char},
    (t, r) ∈ starTake p l → (∀ c ∈ t, p c) ∧ l = t ++ r
  | [], t, r, h => by
    simp [starTake, Prod.mk.injEq] at h
    obtain ⟨rfl, rfl⟩ := h
    exact ⟨by simp, rfl⟩
  | c :: rest, t, r, h => by
    rw [starTake] at h
    by_cases hc : p c
    · rw [if_pos hc] at h
      rcases List.mem_append.mp h with h | h
      · obtain ⟨⟨t', r'⟩, hmem, heq⟩ := List.mem_map.mp h
        have ht : c :: t' = t := congrArg Prod.fst heq
        have hr : r' = r := congrArg Prod.snd heq
        obtain ⟨ht', hrest⟩ := starTake_sound hmem
        subst hr
        subst ht
        exact ⟨by simpa [hc] using ht', by simp [hrest]⟩
      · rw [List.mem_singleton, Prod.mk.injEq] at h
        obtain ⟨rfl, rfl⟩ := h
        exact ⟨by simp, by simp⟩
    · rw [if_neg hc, List.mem_singleton, Prod.mk.injEq] at h
      obtain ⟨rfl, rfl⟩ := h
      exact ⟨by simp, by simp⟩

theorem starTake_complete {p : Char → Bool} : ∀ {t : List Char} (r : List Char),
    (∀ c ∈ t, p c) → (t, r) ∈ starTake p (t ++ r)
  | [], r, _ => by
    cases r with
    | nil => simp [starTake]
    | cons c rest =>
      rw [List.nil_append, starTake]
      by_cases hc : p c
      · simp [hc]
      · simp [hc]
  | c :: t', r, ht => by
    have hc : p c := ht c (List.mem_cons_self _ _)
    rw [List.cons_append, starTake]
    simp only [hc, if_true]
    refine List.mem_append_left _ (List.mem_map.mpr ?_)
    exact ⟨(t', r), starTake_complete r (fun x hx => ht x (List.mem_cons_of_mem _ hx)), rfl⟩

theorem plusTake_sound {p : Char → Bool} {l t r : List Char}
    (h : (t, r) ∈ plusTake p l) : t ≠ [] ∧ (∀ c ∈ t, p c) ∧ l = t ++ r := by
  cases l with
  | nil => simp [plusTake] at h
  | cons c rest =>
    rw [plusTake] at h
    by_cases hc : p c
    · rw [if_pos hc] at h
      obtain ⟨⟨t', r'⟩, hmem, heq⟩ := List.mem_map.mp h
      have ht : c :: t' = t := congrArg Prod.fst heq
      have hr : r' = r := congrArg Prod.snd heq
      obtain ⟨ht', hrest⟩ := starTake_sound hmem
      subst hr
      subst ht
      exact ⟨by simp, by simpa [hc] using ht', by simp [hrest]⟩
    · simp [hc] at h

theorem plusTake_complete {p : Char → Bool} {t : List Char} (r : List Char)
    (hne : t ≠ []) (ht : ∀ c ∈ t, p c) : (t, r) ∈ plusTake p (t ++ r) := by
  cases t with
  | nil => exact absurd rfl hne
  | cons c t' =>
    have hc : p c := ht c (List.mem_cons_self _ _)
    rw [List.cons_append, plusTake]
    simp only [hc, if_true]
    exact List.mem_map.mpr
      ⟨(t', r), starTake_complete r (fun x hx => ht x (List.mem_cons_of_mem _ hx)), rfl⟩

theorem dashTake_sound : ∀ {l t r : List Char}, (t, r) ∈ dashTake l →
    (t = [] ∨ t = ['-'] ∨ t = ['–']) ∧ l = t ++ r
  | [], t, r, h => by
    simp [dashTake, Prod.mk.injEq] at h
    obtain ⟨rfl, rfl⟩ := h
    exact ⟨Or.inl rfl, rfl⟩
  | c :: rest, t, r, h => by
    rw [dashTake] at h
    by_cases hc : dashChar c
    · rw [if_pos hc] at h
      rcases List.mem_cons.mp h with heq | h2
      · rw [Prod.mk.injEq] at heq
        obtain ⟨rfl, rfl⟩ := heq
        have hc2 : c = '-' ∨ c = '–' := by
          unfold dashChar at hc
          simpa using hc
        rcases hc2 with rfl | rfl
        · exact ⟨Or.inr (Or.inl rfl), rfl⟩
        · exact ⟨Or.inr (Or.inr rfl), rfl⟩
      · rw [List.mem_singleton, Prod.mk.injEq] at h2
        obtain ⟨rfl, rfl⟩ := h2
        exact ⟨Or.inl rfl, rfl⟩
    · rw [if_neg hc, List.mem_singleton, Prod.mk.injEq] at h
      obtain ⟨rfl, rfl⟩ := h
      exact ⟨Or.inl rfl, rfl⟩

theorem dashTake_complete {t : List Char} (r : List Char)
    (ht : t = [] ∨ t = ['-'] ∨ t = ['–']) : (t, r) ∈ dashTake (t ++ r) := by
  rcases ht with rfl | rfl | rfl
  · cases r with
    | nil => simp [dashTake]
    | cons c rest =>
      rw [List.nil_append, dashTake]
      by_cases hc : dashChar c
      · simp [hc]
      · simp [hc]
  · rw [List.cons_append, List.nil_append, dashTake]
    have h : dashChar '-' := by decide
    simp [h]
  · rw [List.cons_append, List.nil_append, dashTake]
    have h : dashChar '–' := by decide
    simp [h]


theorem headSplits_sound {l r : List Char} (h : r ∈ headSplits l) :
    ∃ hd, headOkP hd ∧ l = hd ++ r := by
  unfold headSplits at h
  simp only [List.mem_append] at h
  rcases h with ((((h | h) | h) | h) | h) | h
  all_goals exact ⟨_, by unfold headOkP; tauto, prefCands_sound h⟩

theorem headSplits_complete {hd : List Char} (r : List Char) (hh : headOkP hd) :
    r ∈ headSplits (hd ++ r) := by
  unfold headSplits
  simp only [List.mem_append]
  rcases hh with rfl | rfl | rfl | rfl | rfl | rfl
  · have := prefCands_complete "ibid" r; tauto
  · have := prefCands_complete "ibid." r; tauto
  · have := prefCands_complete "ibidem" r; tauto
  · have := prefCands_complete "ibidem." r; tauto
  · have := prefCands_complete "id" r; tauto
  · have := prefCands_complete "id." r; tauto

theorem sepSplits_sound {l r : List Char} (h : r ∈ sepSplits l) :
    ∃ s, sepOkP s ∧ l = s ++ r := by
  unfold sepSplits at h
  simp only [List.mem_append] at h
  rcases h with ((h | h) | h) | h
  · unfold sepAtCands at h
    cases hs : stripPre "at".toList l with
    | some r0 =>
      rw [hs] at h
      obtain ⟨w, hne, hw, hr0⟩ := plusSplits_sound h
      refine ⟨'a' :: 't' :: w, Or.inr (Or.inr ⟨w, hw, hne, rfl⟩), ?_⟩
      have hl := stripPre_sound hs
      simp only [hl, hr0]
      rfl
    | none => rw [hs] at h; simp at h
  · cases l with
    | nil => simp [sepClassCands] at h
    | cons c rest =>
      simp only [sepClassCands] at h
      by_cases hc : c = ',' ∨ c = '.'
      · rw [if_pos hc] at h
        obtain ⟨w, hw, hrest⟩ := starSplits_sound h
        refine ⟨c :: w, Or.inr (Or.inl ⟨w, hw, ?_⟩), by simp [hrest]⟩
        rcases hc with rfl | rfl
        · exact Or.inl rfl
        · exact Or.inr rfl
      · rw [if_neg hc] at h
        simp at h
  · obtain ⟨w, hw, hl⟩ := starSplits_sound h
    exact ⟨w, Or.inl hw, hl⟩
  · rw [List.mem_singleton] at h
    exact ⟨[], Or.inl (by simp), by simp [h]⟩

theorem sepSplits_complete {s : List Char} (r : List Char) (hs : sepOkP s) :
    r ∈ sepSplits (s ++ r) := by
  unfold sepSplits
  simp only [List.mem_append]
  rcases hs with hws | ⟨w, hw, hcp⟩ | ⟨w, hw, hne, rfl⟩
  · have := starSplits_complete r hws; tauto
  · rcases hcp with rfl | rfl
    · have hmem : r ∈ sepClassCands (',' :: w ++ r) := by
        simp only [List.cons_append, sepClassCands, if_pos (Or.inl rfl : (',' : Char) = ',' ∨ (',' : Char) = '.')]
        exact starSplits_complete r hw
      tauto
    · have hmem : r ∈ sepClassCands ('.' :: w ++ r) := by
        simp only [List.cons_append, sepClassCands, if_pos (Or.inr rfl : ('.' : Char) = ',' ∨ ('.' : Char) = '.')]
        exact starSplits_complete r hw
      tauto
  · have hmem : r ∈ sepAtCands ('a' :: 't' :: w ++ r) := by
      unfold sepAtCands
      have hstrip : stripPre "at".toList ('a' :: 't' :: w ++ r) = some (w ++ r) := by
        simp [stripPre]
      rw [hstrip]
      exact plusSplits_complete r hne hw
    tauto

theorem pgrpSplits_sound {l r : List Char} (h : r ∈ pgrpSplits l) :
    ∃ p, pOkP p ∧ l = p ++ r := by
  unfold pgrpSplits at h
  simp only [List.mem_append, List.mem_flatMap] at h
  rcases h with (((⟨m, hm, h⟩ | ⟨m, hm, h⟩) | ⟨m, hm, h⟩) | ⟨m, hm, h⟩) | h
  · have hl := prefCands_sound hm
    obtain ⟨w, hw, hm2⟩ := starSplits_sound h
    refine ⟨['p', 'p'] ++ ['.'] ++ w, Or.inr ⟨['p', 'p'], ['.'], w, Or.inr rfl, Or.inr rfl, hw, rfl⟩, ?_⟩
    simp [hl, hm2]
  · have hl := prefCands_sound hm
    obtain ⟨w, hw, hm2⟩ := starSplits_sound h
    refine ⟨['p', 'p'] ++ [] ++ w, Or.inr ⟨['p', 'p'], [], w, Or.inr rfl, Or.inl rfl, hw, rfl⟩, ?_⟩
    simp [hl, hm2]
  · have hl := prefCands_sound hm
    obtain ⟨w, hw, hm2⟩ := starSplits_sound h
    refine ⟨['p'] ++ ['.'] ++ w, Or.inr ⟨['p'], ['.'], w, Or.inl rfl, Or.inr rfl, hw, rfl⟩, ?_⟩
    simp [hl, hm2]
  · have hl := prefCands_sound hm
    obtain ⟨w, hw, hm2⟩ := starSplits_sound h
    refine ⟨['p'] ++ [] ++ w, Or.inr ⟨['p'], [], w, Or.inl rfl, Or.inl rfl, hw, rfl⟩, ?_⟩
    simp [hl, hm2]
  · rw [List.mem_singleton] at h
    exact ⟨[], Or.inl rfl, by simp [h]⟩

theorem pgrpSplits_complete {p : List Char} (r : List Char) (hp : pOkP p) :
    r ∈ pgrpSplits (p ++ r) := by
  unfold pgrpSplits
  simp only [List.mem_append, List.mem_flatMap]
  rcases hp with rfl | ⟨core, dot, w, hcore, hdot, hw, rfl⟩
  · simp
  · rcases hcore with rfl | rfl <;> rcases hdot with rfl | rfl
    · -- core = [p], dot = []
      have hm : (w ++ r) ∈ prefCands "p" (['p'] ++ [] ++ w ++ r) := by
        simpa using prefCands_complete "p" (w ++ r)
      have := starSplits_complete r hw
      refine Or.inl (Or.inr ⟨w ++ r, hm, this⟩)
    · -- core = [p], dot = [.]
      have hm : (w ++ r) ∈ prefCands "p." (['p'] ++ ['.'] ++ w ++ r) := by
        simpa using prefCands_complete "p." (w ++ r)
      have := starSplits_complete r hw
      exact Or.inl (Or.inl (Or.inr ⟨w ++ r, hm, this⟩))
    · -- core = [p,p], dot = []
      have hm : (w ++ r) ∈ prefCands "pp" (['p', 'p'] ++ [] ++ w ++ r) := by
        simpa using prefCands_complete "pp" (w ++ r)
      have := starSplits_complete r hw
      exact Or.inl (Or.inl (Or.inl (Or.inr ⟨w ++ r, hm, this⟩)))
    · -- core = [p,p], dot = [.]
      have hm : (w ++ r) ∈ prefCands "pp." (['p', 'p'] ++ ['.'] ++ w ++ r) := by
        simpa using prefCands_complete "pp." (w ++ r)
      have := starSplits_complete r hw
      exact Or.inl (Or.inl (Or.inl (Or.inl ⟨w ++ r, hm, this⟩)))

theorem pageSplits_sound_some {l r pg : List Char}
    (h : (r, some pg) ∈ pageSplits l) : pageOkP pg ∧ l = pg ++ r := by
  unfold pageSplits at h
  simp only [List.mem_append, List.mem_flatMap, List.mem_map, List.mem_singleton] at h
  rcases h with ⟨d1, hd1, ds, hds, d2, hd2, heq⟩ | h
  · obtain ⟨hne1, hdig1, hl1⟩ := plusTake_sound hd1
    obtain ⟨hdsok, hl2⟩ := dashTake_sound hds
    obtain ⟨hdig2, hl3⟩ := starTake_sound hd2
    have hr : d2.2 = r := congrArg Prod.fst heq
    have hpg : some (d1.1 ++ ds.1 ++ d2.1) = some pg := congrArg Prod.snd heq
    rw [Option.some.injEq] at hpg
    refine ⟨⟨d1.1, ds.1, d2.1, hne1, hdig1, hdsok, hdig2, hpg.symm⟩, ?_⟩
    rw [hl1, hl2, hl3, hr, ← hpg]
    simp
  · rw [Prod.mk.injEq] at h
    exact absurd h.2 (by simp)

theorem pageSplits_sound_none {l r : List Char}
    (h : (r, (none : Option (List Char))) ∈ pageSplits l) : r = l := by
  unfold pageSplits at h
  simp only [List.mem_append, List.mem_flatMap, List.mem_map, List.mem_singleton] at h
  rcases h with ⟨d1, hd1, ds, hds, d2, hd2, heq⟩ | h
  · have := congrArg Prod.snd heq
    simp at this
  · rw [Prod.mk.injEq] at h
    exact h.1

theorem pageSplits_complete_some {pg : List Char} (r : List Char) (hpg : pageOkP pg) :
    (r, some pg) ∈ pageSplits (pg ++ r) := by
  unfold pageSplits
  simp only [List.mem_append, List.mem_flatMap, List.mem_map]
  obtain ⟨d1, ds, d2, hne1, hdig1, hdsok, hdig2, rfl⟩ := hpg
  refine Or.inl ⟨(d1, ds ++ d2 ++ r), ?_, (ds, d2 ++ r), ?_, (d2, r), ?_, ?_⟩
  · have := plusTake_complete (ds ++ (d2 ++ r)) hne1 hdig1
    simpa using this
  · simpa [List.append_assoc] using dashTake_complete (d2 ++ r) hdsok
  · exact starTake_complete r hdig2
  · simp

theorem pageSplits_complete_none (l : List Char) :
    (l, (none : Option (List Char))) ∈ pageSplits l := by
  unfold pageSplits
  simp

theorem pageOkP_ne_nil {pg : List Char} (h : pageOkP pg) : pg ≠ [] := by
  obtain ⟨d1, ds, d2, hne1, -, -, -, rfl⟩ := h
  simp [hne1]

theorem ibidMatch_sound {l : List Char} {cap : Option (List Char)}
    (h : ibidMatchList l = some cap) :
    ∃ pg, IbidDecomp l pg ∧ cap = (if pg.isEmpty then none else some pg) := by
  unfold ibidMatchList at h
  obtain ⟨l1, hl1, hA⟩ := firstSome_eq_some h
  obtain ⟨l2, hl2, hB⟩ := firstSome_eq_some hA
  obtain ⟨l3, hl3, hC⟩ := firstSome_eq_some hB
  obtain ⟨l4, hl4, hD⟩ := firstSome_eq_some hC
  obtain ⟨pr, hpr, hE⟩ := firstSome_eq_some hD
  by_cases hend : endOk pr.1
  · rw [if_pos hend] at hE
    rw [Option.some.injEq] at hE
    obtain ⟨hd, hhd, rfl⟩ := headSplits_sound hl1
    obtain ⟨w, hw, rfl⟩ := starSplits_sound hl2
    obtain ⟨s, hs, rfl⟩ := sepSplits_sound hl3
    obtain ⟨p, hp, rfl⟩ := pgrpSplits_sound hl4
    have hdot : dotOkP pr.1 := by
      unfold endOk at hend
      simpa [dotOkP] using hend
    cases hcap : pr.2 with
    | some pg =>
      have hpr' : (pr.1, some pg) ∈ pageSplits l4 := hcap ▸ hpr
      obtain ⟨hpage, hl4eq⟩ := pageSplits_sound_some hpr'
      refine ⟨pg, ⟨hd, w, s, p, pr.1, hhd, hw, hs, hp, Or.inr hpage, hdot, ?_⟩, ?_⟩
      · rw [hl4eq]
        simp [List.append_assoc]
      · rw [if_neg (by simpa using pageOkP_ne_nil hpage)]
        rw [← hE, hcap]
    | none =>
      have hpr' : (pr.1, (none : Option (List Char))) ∈ pageSplits l4 := hcap ▸ hpr
      have hl4eq := pageSplits_sound_none hpr'
      refine ⟨[], ⟨hd, w, s, p, pr.1, hhd, hw, hs, hp, Or.inl rfl, hdot, ?_⟩, ?_⟩
      · rw [← hl4eq]
        simp [List.append_assoc]
      · rw [← hE, hcap]
        simp
  · rw [if_neg hend] at hE
    cases hE

theorem pageChain_isSome {pg d : List Char} (hpage : pg = [] ∨ pageOkP pg)
    (hend : endOk d) :
    (firstSome (pageSplits (pg ++ d))
      (fun pr => if endOk pr.1 then some pr.2 else none)).isSome := by
  rcases hpage with rfl | hpage
  · refine firstSome_isSome (b := (none : Option (List Char)))
      (pageSplits_complete_none ([] ++ d)) ?_
    simp only [List.nil_append]
    rw [if_pos hend]
  · refine firstSome_isSome (b := some pg) (pageSplits_complete_some d hpage) ?_
    rw [if_pos hend]

theorem pgrpChain_isSome {p pg d : List Char} (hp : pOkP p)
    (hpage : pg = [] ∨ pageOkP pg) (hend : endOk d) :
    (firstSome (pgrpSplits (p ++ (pg ++ d)))
      (fun l4 => firstSome (pageSplits l4)
        (fun pr => if endOk pr.1 then some pr.2 else none))).isSome := by
  obtain ⟨b, hb⟩ := Option.isSome_iff_exists.mp (pageChain_isSome hpage hend)
  exact firstSome_isSome
    (f := fun l4 => firstSome (pageSplits l4)
      (fun pr => if endOk pr.1 then some pr.2 else none))
    (pgrpSplits_complete (pg ++ d) hp) hb

theorem sepChain_isSome {s p pg d : List Char} (hs : sepOkP s) (hp : pOkP p)
    (hpage : pg = [] ∨ pageOkP pg) (hend : endOk d) :
    (firstSome (sepSplits (s ++ (p ++ (pg ++ d))))
      (fun l3 => firstSome (pgrpSplits l3)
        (fun l4 => firstSome (pageSplits l4)
          (fun pr => if endOk pr.1 then some pr.2 else none)))).isSome := by
  obtain ⟨b, hb⟩ := Option.isSome_iff_exists.mp (pgrpChain_isSome hp hpage hend)
  exact firstSome_isSome
    (f := fun l3 => firstSome (pgrpSplits l3)
      (fun l4 => firstSome (pageSplits l4)
        (fun pr => if endOk pr.1 then some pr.2 else none)))
    (sepSplits_complete (p ++ (pg ++ d)) hs) hb

theorem wsChain_isSome {w s p pg d : List Char} (hw : wsOkP w) (hs : sepOkP s)
    (hp : pOkP p) (hpage : pg = [] ∨ pageOkP pg) (hend : endOk d) :
    (firstSome (starSplits pySpace (w ++ (s ++ (p ++ (pg ++ d)))))
      (fun l2 => firstSome (sepSplits l2)
        (fun l3 => firstSome (pgrpSplits l3)
          (fun l4 => firstSome (pageSplits l4)
            (fun pr => if endOk pr.1 then some pr.2 else none))))).isSome := by
  obtain ⟨b, hb⟩ := Option.isSome_iff_exists.mp (sepChain_isSome hs hp hpage hend)
  exact firstSome_isSome
    (f := fun l2 => firstSome (sepSplits l2)
      (fun l3 => firstSome (pgrpSplits l3)
        (fun l4 => firstSome (pageSplits l4)
          (fun pr => if endOk pr.1 then some pr.2 else none))))
    (starSplits_complete (s ++ (p ++ (pg ++ d))) hw) hb

theorem ibidMatch_complete {l pg : List Char} (hD : IbidDecomp l pg) :
    (ibidMatchList l).isSome := by
  obtain ⟨hd, w, s, p, d, hhd, hw, hs, hp, hpage, hdot, rfl⟩ := hD
  have hend : endOk d := by
    unfold endOk
    rcases hdot with rfl | rfl <;> simp
  obtain ⟨b, hb⟩ := Option.isSome_iff_exists.mp (wsChain_isSome hw hs hp hpage hend)
  have hmain := firstSome_isSome
    (f := fun l1 => firstSome (starSplits pySpace l1)
      (fun l2 => firstSome (sepSplits l2)
        (fun l3 => firstSome (pgrpSplits l3)
          (fun l4 => firstSome (pageSplits l4)
            (fun pr => if endOk pr.1 then some pr.2 else none)))))
    (headSplits_complete (w ++ (s ++ (p ++ (pg ++ d)))) hhd) hb
  unfold ibidMatchList
  have hassoc : hd ++ w ++ s ++ p ++ pg ++ d = hd ++ (w ++ (s ++ (p ++ (pg ++ d)))) := by
    simp [List.append_assoc]
  rw [hassoc]
  exact hmain

def ddChar (c : Char) : Bool := digitChar c || dashChar c

theorem pySpace_not_dd {c : Char} (hc : pySpace c) : ¬ddChar c := by
  unfold pySpace at hc
  have hc2 : ((((c = ' ' ∨ c = '\t') ∨ c = '\n') ∨ c = '\x0d') ∨ c = '\x0b') ∨ c = '\x0c' := by
    simpa using hc
  rcases hc2 with ((((rfl | rfl) | rfl) | rfl) | rfl) | rfl <;> decide

theorem head_not_dd {h : List Char} (hh : headOkP h) : ∀ c ∈ h, ¬ddChar c := by
  rcases hh with rfl | rfl | rfl | rfl | rfl | rfl <;> decide

theorem ws_not_dd {w : List Char} (hw : wsOkP w) : ∀ c ∈ w, ¬ddChar c :=
  fun c hc => pySpace_not_dd (hw c hc)

theorem sep_not_dd {s : List Char} (hs : sepOkP s) : ∀ c ∈ s, ¬ddChar c := by
  rcases hs with hws | ⟨w, hw, hcp⟩ | ⟨w, hw, hne, rfl⟩
  · exact fun c hc => pySpace_not_dd (hws c hc)
  · rcases hcp with rfl | rfl
    · intro c hc
      rcases List.mem_cons.mp hc with rfl | hc2
      · decide
      · exact pySpace_not_dd (hw c hc2)
    · intro c hc
      rcases List.mem_cons.mp hc with rfl | hc2
      · decide
      · exact pySpace_not_dd (hw c hc2)
  · intro c hc
    rcases List.mem_cons.mp hc with rfl | hc2
    · decide
    · rcases List.mem_cons.mp hc2 with rfl | hc3
      · decide
      · exact pySpace_not_dd (hw c hc3)

theorem pmark_not_dd {p : List Char} (hp : pOkP p) : ∀ c ∈ p, ¬ddChar c := by
  rcases hp with rfl | ⟨core, dot, w, hcore, hdot, hw, rfl⟩
  · simp
  · intro c hc
    simp only [List.append_assoc, List.mem_append] at hc
    rcases hc with hc | hc | hc
    · rcases hcore with rfl | rfl
      · rcases List.mem_singleton.mp hc with rfl; decide
      · rcases List.mem_cons.mp hc with rfl | hc2
        · decide
        · rcases List.mem_singleton.mp hc2 with rfl; decide
    · rcases hdot with rfl | rfl
      · simp at hc
      · rcases List.mem_singleton.mp hc with rfl; decide
    · exact pySpace_not_dd (hw c hc)

theorem page_all_dd {pg : List Char} (hpg : pageOkP pg) : ∀ c ∈ pg, ddChar c := by
  obtain ⟨d1, ds, d2, hne1, hdig1, hds, hdig2, rfl⟩ := hpg
  intro c hc
  simp only [List.append_assoc, List.mem_append] at hc
  rcases hc with hc | hc | hc
  · unfold ddChar; simp [hdig1 c hc]
  · rcases hds with rfl | rfl | rfl
    · simp at hc
    · rcases List.mem_singleton.mp hc with rfl; decide
    · rcases List.mem_singleton.mp hc with rfl; decide
  · unfold ddChar; simp [hdig2 c hc]

theorem takeWhile_all_append {p : Char → Bool} : ∀ (xs ys : List Char),
    (∀ c ∈ xs, p c) → List.takeWhile p (xs ++ ys) = xs ++ List.takeWhile p ys
  | [], ys, _ => by simp
  | x :: xs, ys, hall => by
    have hx : p x := hall x (List.mem_cons_self _ _)
    rw [List.cons_append, List.takeWhile_cons_of_pos hx,
      takeWhile_all_append xs ys (fun c hc => hall c (List.mem_cons_of_mem _ hc))]
    rfl

theorem takeWhile_eq_nil_of_none {p : Char → Bool} : ∀ (l : List Char),
    (∀ c ∈ l, ¬p c) → List.takeWhile p l = []
  | [], _ => rfl
  | x :: xs, hall => by
    rw [List.takeWhile_cons_of_neg (hall x (List.mem_cons_self _ _))]

/-- The maximal run of digit/dash characters at the end of a list. -/
def trailRun (l : List Char) : List Char :=
  (l.reverse.takeWhile ddChar).reverse

theorem trailRun_append {A pg : List Char} (hA : ∀ c ∈ A, ¬ddChar c)
    (hpg : ∀ c ∈ pg, ddChar c) : trailRun (A ++ pg) = pg := by
  unfold trailRun
  rw [List.reverse_append]
  rw [takeWhile_all_append pg.reverse A.reverse (fun c hc => hpg c (List.mem_reverse.mp hc))]
  rw [takeWhile_eq_nil_of_none A.reverse (fun c hc => hA c (List.mem_reverse.mp hc))]
  simp

/-- The canonical page capture of a list: the trailing digit/dash run
after discarding a final period. -/
def canonPg (l : List Char) : List Char :=
  if l.getLast? = some '.' then trailRun l.dropLast else trailRun l

theorem decompA_noDD {hd w s p : List Char} (hh : headOkP hd) (hw : wsOkP w)
    (hs : sepOkP s) (hp : pOkP p) : ∀ c ∈ ((hd ++ w) ++ s) ++ p, ¬ddChar c := by
  intro c hc
  simp only [List.mem_append] at hc
  rcases hc with ((hc | hc) | hc) | hc
  · exact head_not_dd hh c hc
  · exact ws_not_dd hw c hc
  · exact sep_not_dd hs c hc
  · exact pmark_not_dd hp c hc

theorem IbidDecomp_pg_canon {l pg : List Char} (hD : IbidDecomp l pg) :
    pg = canonPg l := by
  obtain ⟨hd, w, s, p, d, hh, hw, hs, hp, hpage, hdot, rfl⟩ := hD
  have hA : ∀ c ∈ ((hd ++ w) ++ s) ++ p, ¬ddChar c := decompA_noDD hh hw hs hp
  have hpgdd : ∀ c ∈ pg, ddChar c := by
    rcases hpage with rfl | hok
    · simp
    · exact page_all_dd hok
  rcases hdot with rfl | rfl
  · -- no final period
    rw [List.append_nil]
    by_cases hpgnil : pg = []
    · subst hpgnil
      rw [List.append_nil]
      unfold canonPg
      by_cases hlast : (((hd ++ w) ++ s) ++ p).getLast? = some '.'
      · rw [if_pos hlast]
        have hsub : ∀ c ∈ (((hd ++ w) ++ s) ++ p).dropLast, ¬ddChar c :=
          fun c hc => hA c (List.dropLast_subset _ hc)
        have := @trailRun_append ((((hd ++ w) ++ s) ++ p).dropLast) [] hsub (by simp)
        simp only [List.append_nil] at this
        exact this.symm
      · rw [if_neg hlast]
        have := @trailRun_append (((hd ++ w) ++ s) ++ p) [] hA (by simp)
        simp only [List.append_nil] at this
        exact this.symm
    · unfold canonPg
      have hlastpg : (((hd ++ w) ++ s) ++ p ++ pg).getLast? = pg.getLast? :=
        List.getLast?_append_of_ne_nil _ hpgnil
      have hlastmem : ∃ c, pg.getLast? = some c ∧ ddChar c := by
        have hgl := List.getLast?_eq_getLast pg hpgnil
        exact ⟨pg.getLast hpgnil, hgl, hpgdd _ (List.getLast_mem hpgnil)⟩
      obtain ⟨c, hgl, hdd⟩ := hlastmem
      have hne : (((hd ++ w) ++ s) ++ p ++ pg).getLast? ≠ some '.' := by
        rw [hlastpg, hgl]
        intro hcontra
        rw [Option.some.injEq] at hcontra
        subst hcontra
        exact absurd hdd (by decide)
      rw [if_neg hne]
      exact (trailRun_append hA hpgdd).symm
  · -- final period
    unfold canonPg
    have hlast : ((((hd ++ w) ++ s) ++ p ++ pg) ++ ['.']).getLast? = some '.' := by
      rw [List.getLast?_append_of_ne_nil _ (by simp : (['.'] : List Char) ≠ [])]
      rfl
    rw [if_pos hlast]
    have hdrop : ((((hd ++ w) ++ s) ++ p ++ pg) ++ ['.']).dropLast = ((hd ++ w) ++ s) ++ p ++ pg := by
      simp
    rw [hdrop]
    exact (trailRun_append hA hpgdd).symm

theorem IbidDecomp_page_unique {l pg1 pg2 : List Char}
    (h1 : IbidDecomp l pg1) (h2 : IbidDecomp l pg2) : pg1 = pg2 := by
  rw [IbidDecomp_pg_canon h1, IbidDecomp_pg_canon h2]

theorem IbidDecomp_nil_false {pg : List Char} (hD : IbidDecomp [] pg) : False := by
  obtain ⟨hd, w, s, p, d, hh, -, -, -, -, -, heq⟩ := hD
  have hne : hd ≠ [] := by
    rcases hh with rfl | rfl | rfl | rfl | rfl | rfl <;> simp
  have : hd = [] := by
    have := heq.symm
    simp only [List.append_eq_nil] at this
    exact this.1.1.1.1.1
  exact hne this

theorem dropWhile_eq_self_of_none {p : Char → Bool} : ∀ (l : List Char),
    (∀ c ∈ l, ¬p c) → List.dropWhile p l = l
  | [], _ => rfl
  | x :: xs, hall => by
    rw [List.dropWhile_cons_of_neg (hall x (List.mem_cons_self _ _))]

theorem pyStripList_dd {pg : List Char} (hdd : ∀ c ∈ pg, ddChar c) :
    pyStripList pg = pg := by
  unfold pyStripList
  have hnows : ∀ c ∈ pg, ¬pySpace c := by
    intro c hc hws
    exact pySpace_not_dd hws (hdd c hc)
  rw [dropWhile_eq_self_of_none pg hnows]
  rw [dropWhile_eq_self_of_none pg.reverse (fun c hc => hnows c (List.mem_reverse.mp hc))]
  simp

theorem ibidMatchList_isSome_iff (l : List Char) :
    (ibidMatchList l).isSome ↔ ∃ pg, IbidDecomp l pg := by
  constructor
  · intro h
    obtain ⟨cap, hcap⟩ := Option.isSome_iff_exists.mp h
    obtain ⟨pg, hD, -⟩ := ibidMatch_sound hcap
    exact ⟨pg, hD⟩
  · rintro ⟨pg, hD⟩
    exact ibidMatch_complete hD

theorem ibidMatch_group_iff (l : List Char) (p : List Char) :
    (match ibidMatchList l with
     | some (some pg) => if ¬pg.isEmpty then some pg else none
     | _ => (none : Option (List Char))) = some p ↔
      p ≠ [] ∧ IbidDecomp l p := by
  constructor
  · intro h
    cases hm : ibidMatchList l with
    | none => rw [hm] at h; cases h
    | some cap =>
      cases cap with
      | none => rw [hm] at h; cases h
      | some pg =>
        rw [hm] at h
        dsimp only at h
        obtain ⟨pg0, hD, hcap⟩ := ibidMatch_sound hm
        by_cases hnil : pg.isEmpty
        · rw [if_neg (by simpa using hnil)] at h
          cases h
        · rw [if_pos (by simpa using hnil)] at h
          rw [Option.some.injEq] at h
          subst h
          have hpe : pg0 = pg := by
            by_cases h0 : pg0.isEmpty
            · rw [if_pos h0] at hcap; cases hcap
            · rw [if_neg h0] at hcap
              exact (Option.some.injEq .. ▸ hcap).symm
          subst hpe
          exact ⟨by simpa using hnil, hD⟩
  · rintro ⟨hne, hD⟩
    have hsome := ibidMatch_complete hD
    obtain ⟨cap, hcap⟩ := Option.isSome_iff_exists.mp hsome
    obtain ⟨pg0, hD0, hcapeq⟩ := ibidMatch_sound hcap
    have : pg0 = p := IbidDecomp_page_unique hD0 hD
    subst this
    rw [hcap, hcapeq]
    rw [if_neg (by simpa using hne)]
    dsimp only
    rw [if_pos (by simpa using hne)]

/-! ## Lemmas about the citation history ledger -/

theorem str_append_len_pos (a x : String) (ha : a.length ≠ 0) : (a ++ x).length ≠ 0 := by
  rw [String.length_append]
  omega

theorem str_append_ne_empty (a x : String) (ha : a.length ≠ 0) : a ++ x ≠ "" := by
  intro h
  have hlen := congrArg String.length h
  rw [String.length_append] at hlen
  have h0 : ("" : String).length = 0 := by decide
  rw [h0] at hlen
  omega

theorem generate_source_key_ne_empty {m : Option CitationMetadata} {k : String}
    (h : generate_source_key m = some k) : k ≠ "" := by
  cases m with
  | none => simp [generate_source_key] at h
  | some mm =>
    simp only [generate_source_key] at h
    split_ifs at h <;> rw [Option.some.injEq] at h <;> subst h
    · exact str_append_ne_empty "doi:" _ (by decide)
    · exact str_append_ne_empty "url:" _ (by decide)
    · exact str_append_ne_empty _ _ (str_append_len_pos _ _ (str_append_len_pos "legal:" _ (by decide)))
    · exact str_append_ne_empty _ _ (str_append_len_pos "title:" _ (by decide))
    · exact str_append_ne_empty "case:" _ (by decide)

theorem lookup_append_single {β : Type} (l : List (String × β)) (k k0 : String) (e : β) :
    (l ++ [(k0, e)]).lookup k = (match l.lookup k with
      | some v => some v
      | none => if k = k0 then some e else none) := by
  induction l with
  | nil =>
    simp only [List.nil_append, List.lookup]
    by_cases hk : k = k0
    · have hb : (k == k0) = true := by simpa using hk
      simp [hb, hk]
    · have hb : (k == k0) = false := by simpa using hk
      simp [hb, hk]
  | cons a l ih =>
    obtain ⟨ka, va⟩ := a
    rw [List.cons_append]
    simp only [List.lookup]
    by_cases hk : k = ka
    · have hb : (k == ka) = true := by simpa using hk
      simp [hb]
    · have hb : (k == ka) = false := by simpa using hk
      simp only [hb]
      exact ih

theorem CitationHistory.add_lookup (h : CitationHistory) (m : Option CitationMetadata)
    (f k : String) :
    ((h.add m f).all_sources.lookup k) =
      (if generate_source_key m = some k ∧ h.all_sources.lookup k = none
       then some { metadata := m, formatted := f, source_key := generate_source_key m,
                   note_number := h.note_counter + 1 }
       else h.all_sources.lookup k) := by
  unfold CitationHistory.add
  cases hg : generate_source_key m with
  | none =>
    dsimp only
    rw [if_neg (by rintro ⟨hcon, -⟩; cases hcon)]
  | some k0 =>
    dsimp only
    have hk0 : k0 ≠ "" := generate_source_key_ne_empty hg
    by_cases habs : (h.all_sources.lookup k0).isNone = true
    · rw [if_pos ⟨hk0, habs⟩]
      rw [lookup_append_single]
      rw [Option.isNone_iff_eq_none] at habs
      by_cases hkk : k = k0
      · subst hkk
        simp [habs]
      · have hcond : ¬(some k0 = some k ∧ h.all_sources.lookup k = none) := by
          rintro ⟨hc, -⟩
          rw [Option.some.injEq] at hc
          exact hkk hc.symm
        rw [if_neg hcond]
        cases hl : h.all_sources.lookup k
        · dsimp only
          rw [if_neg hkk]
        · rfl
    · rw [if_neg (fun hcc => habs hcc.2)]
      rw [Option.isNone_iff_eq_none] at habs
      by_cases hkk : k = k0
      · subst hkk
        rw [if_neg (fun hcc => habs hcc.2)]
      · have hcond : ¬(some k0 = some k ∧ h.all_sources.lookup k = none) := by
          rintro ⟨hc, -⟩
          rw [Option.some.injEq] at hc
          exact hkk hc.symm
        rw [if_neg hcond]

theorem CitationHistory.add_counter (h : CitationHistory) (m : Option CitationMetadata)
    (f : String) : (h.add m f).note_counter = h.note_counter + 1 := rfl

theorem foldAdds_lookup (ops : List (Option CitationMetadata × String)) :
    ∀ (h : CitationHistory) (k : String),
      ((ops.foldl (fun acc op => acc.add op.1 op.2) h).all_sources.lookup k) =
        (match h.all_sources.lookup k with
         | some e => some e
         | none => findFirstEntry k ops h.note_counter) := by
  induction ops with
  | nil =>
    intro h k
    simp only [List.foldl_nil, findFirstEntry]
    cases h.all_sources.lookup k <;> rfl
  | cons op rest ih =>
    intro h k
    obtain ⟨m, f⟩ := op
    rw [List.foldl_cons]
    rw [ih (h.add m f) k]
    rw [CitationHistory.add_lookup, CitationHistory.add_counter]
    simp only [findFirstEntry]
    by_cases hg : generate_source_key m = some k
    · rw [if_pos hg]
      by_cases hl : h.all_sources.lookup k = none
      · rw [if_pos ⟨hg, hl⟩, hl]
        dsimp only
        rw [hg]
      · rw [if_neg (fun hcc => hl hcc.2)]
        obtain ⟨v, hv⟩ := Option.ne_none_iff_exists'.mp hl
        rw [hv]
    · rw [if_neg (fun hcc => hg hcc.1)]
      rw [if_neg hg]

/-! ## Claim theorems: source keys and the history ledger -/

/-- Claim C1 counterexample: a metadata record whose `doi` field is truthy
(a whitespace-only string) but normalizes to the empty string yields a
`null` source key even though the record "has a DOI", refuting the claimed
nullity characterization. -/
theorem source_key_nullity_counterexample :
    generate_source_key (some ({ doi := some " " } : CitationMetadata)) = none ∧
    ¬(generate_source_key (some ({ doi := some " " } : CitationMetadata)) = none ↔
      (¬strTruthy ({ doi := some " " } : CitationMetadata).doi ∧
       ¬strTruthy ({ doi := some " " } : CitationMetadata).url ∧
       ¬strTruthy ({ doi := some " " } : CitationMetadata).case_name ∧
       ¬strTruthy ({ doi := some " " } : CitationMetadata).title)) := by
  decide

set_option maxHeartbeats 1000000 in
/-- Claim C1 (amended): `generate_source_key` returns the first applicable
key in the priority order DOI (normalized), URL (normalized), legal case
name + citation, title with optional first author, bare case name, else
`none`; the key is `none` iff the record has no DOI *that normalizes to a
non-empty string*, no URL, no legal case name, and no title; and
`sources_match` holds iff both records yield non-null, equal keys. -/
theorem source_key_priority_nullity_and_matching :
    (∀ m : CitationMetadata,
      ((strTruthy m.doi ∧ normalize_doi (m.doi.getD "") ≠ "") →
        generate_source_key (some m) = some ("doi:" ++ normalize_doi (m.doi.getD ""))) ∧
      (¬(strTruthy m.doi ∧ normalize_doi (m.doi.getD "") ≠ "") → strTruthy m.url →
        generate_source_key (some m) = some ("url:" ++ normalize_url (m.url.getD ""))) ∧
      (¬(strTruthy m.doi ∧ normalize_doi (m.doi.getD "") ≠ "") → ¬strTruthy m.url →
        (strTruthy m.case_name ∧ strTruthy m.citation) →
        generate_source_key (some m) =
          some ("legal:" ++ pyStrip (pyLower (m.case_name.getD "")) ++ "|" ++
            pyStrip (pyLower (m.citation.getD "")))) ∧
      (¬(strTruthy m.doi ∧ normalize_doi (m.doi.getD "") ≠ "") → ¬strTruthy m.url →
        ¬(strTruthy m.case_name ∧ strTruthy m.citation) → strTruthy m.title →
        generate_source_key (some m) =
          some ("title:" ++ pyStrip (pyLower (m.title.getD "")) ++
            (match m.authors with
             | [] => ""
             | a :: _ => "|author:" ++ pyStrip (pyLower a)))) ∧
      (¬(strTruthy m.doi ∧ normalize_doi (m.doi.getD "") ≠ "") → ¬strTruthy m.url →
        ¬(strTruthy m.case_name ∧ strTruthy m.citation) → ¬strTruthy m.title →
        strTruthy m.case_name →
        generate_source_key (some m) =
          some ("case:" ++ pyStrip (pyLower (m.case_name.getD "")))) ∧
      (generate_source_key (some m) = none ↔
        (¬(strTruthy m.doi ∧ normalize_doi (m.doi.getD "") ≠ "") ∧ ¬strTruthy m.url ∧
         ¬strTruthy m.case_name ∧ ¬strTruthy m.title))) ∧
    (∀ m1 m2 : Option CitationMetadata,
      sources_match m1 m2 = true ↔
        ∃ k, generate_source_key m1 = some k ∧ generate_source_key m2 = some k) := by
  constructor
  · intro m
    refine ⟨?_, ?_, ?_, ?_, ?_, ?_⟩
    · intro h1
      simp only [generate_source_key]
      rw [if_pos h1]
    · intro h1 h2
      simp only [generate_source_key]
      rw [if_neg h1, if_pos h2]
    · intro h1 h2 h3
      simp only [generate_source_key]
      rw [if_neg h1, if_neg h2, if_pos h3]
    · intro h1 h2 h3 h4
      simp only [generate_source_key]
      rw [if_neg h1, if_neg h2, if_neg h3, if_pos h4]
    · intro h1 h2 h3 h4 h5
      simp only [generate_source_key]
      rw [if_neg h1, if_neg h2, if_neg h3, if_neg h4, if_pos h5]
    · simp only [generate_source_key]
      split_ifs with h1 h2 h3 h4 h5
      · exact ⟨(fun hc => nomatch hc), fun hc => absurd h1 hc.1⟩
      · exact ⟨(fun hc => nomatch hc), fun hc => absurd h2 hc.2.1⟩
      · exact ⟨(fun hc => nomatch hc), fun hc => absurd h3.1 hc.2.2.1⟩
      · exact ⟨(fun hc => nomatch hc), fun hc => absurd h4 hc.2.2.2⟩
      · exact ⟨(fun hc => nomatch hc), fun hc => absurd h5 hc.2.2.1⟩
      · exact ⟨fun hcon => ⟨h1, h2, h5, h4⟩, fun hcon => rfl⟩
  · intro m1 m2
    unfold sources_match
    cases g1 : generate_source_key m1 <;> cases g2 : generate_source_key m2 <;>
      simp [g1, g2]
    exact eq_comm

/-- Witness for the amended C1 theorem at concrete inputs. -/
theorem source_key_priority_witness :
    generate_source_key (some ({ doi := some "10.1000/ABC" } : CitationMetadata)) =
      some ("doi:" ++ normalize_doi (((some "10.1000/ABC" : Option String)).getD "")) ∧
    generate_source_key (some ({ url := some "https://Example.com/" } : CitationMetadata)) =
      some ("url:" ++ normalize_url (((some "https://Example.com/" : Option String)).getD "")) := by
  constructor
  · exact ((source_key_priority_nullity_and_matching.1
      { doi := some "10.1000/ABC" }).1) (by decide)
  · exact ((source_key_priority_nullity_and_matching.1
      { url := some "https://Example.com/" }).2.1) (by decide) (by decide)

/-- Claim C2: each `CitationHistory.add` increments the note ordinal by
exactly one, sets `previous` to the newly created entry, inserts into the
seen map iff the source key is non-null and absent, and consequently the
entry stored under a key `k` after any sequence of adds on a fresh history
is the first-added entry whose key is `k`. -/
theorem citation_history_add_spec :
    (∀ (h : CitationHistory) (m : Option CitationMetadata) (f : String),
        (h.add m f).note_counter = h.note_counter + 1) ∧
    (∀ (h : CitationHistory) (m : Option CitationMetadata) (f : String),
        (h.add m f).previous =
          some { metadata := m, formatted := f, source_key := generate_source_key m,
                 note_number := h.note_counter + 1 }) ∧
    (∀ (h : CitationHistory) (m : Option CitationMetadata) (f k : String),
        ((h.add m f).all_sources.lookup k) =
          (if generate_source_key m = some k ∧ h.all_sources.lookup k = none
           then some { metadata := m, formatted := f,
                       source_key := generate_source_key m,
                       note_number := h.note_counter + 1 }
           else h.all_sources.lookup k)) ∧
    (∀ (ops : List (Option CitationMetadata × String)) (k : String),
        ((runAdds ops).all_sources.lookup k) = findFirstEntry k ops 0) := by
  refine ⟨fun h m f => rfl, fun h m f => rfl,
    fun h m f k => CitationHistory.add_lookup h m f k, ?_⟩
  intro ops k
  unfold runAdds
  rw [foldAdds_lookup]
  rfl

/-! ## Claim theorems: the Phase 2 citation-form engine -/

/-- Claim C3: an explicit-token ibid note (S0) and a URL-ibid note (S2)
leave the citation history entirely unchanged, while same-as-previous
(S3), short-form (S4) and full-citation (S5) notes perform exactly one
`CitationHistory.add` with the note's metadata and its emitted string. -/
theorem citation_form_engine_history_effects :
    ∀ (fmtIbid : Option String → String) (fmtShort : Option CitationMetadata → String)
      (st : EngineState) (d : FetchedNote),
    (d.is_explicit_ibid = true → (processNote fmtIbid fmtShort st d).history = st.history) ∧
    (d.is_explicit_ibid = false →
      (d.metadata.isNone || !(strTruthy d.formatted)) = false →
      (strTruthy d.current_url ∧ strTruthy st.history.get_previous_url ∧
        urls_match d.current_url st.history.get_previous_url) →
      (processNote fmtIbid fmtShort st d).history = st.history) ∧
    (d.is_explicit_ibid = false →
      (d.metadata.isNone || !(strTruthy d.formatted)) = false →
      ¬(strTruthy d.current_url ∧ strTruthy st.history.get_previous_url ∧
        urls_match d.current_url st.history.get_previous_url) →
      st.history.is_same_as_previous d.metadata = true →
      (processNote fmtIbid fmtShort st d).history =
        st.history.add d.metadata (fmtIbid none)) ∧
    (d.is_explicit_ibid = false →
      (d.metadata.isNone || !(strTruthy d.formatted)) = false →
      ¬(strTruthy d.current_url ∧ strTruthy st.history.get_previous_url ∧
        urls_match d.current_url st.history.get_previous_url) →
      st.history.is_same_as_previous d.metadata = false →
      st.history.has_been_cited_before d.metadata = true →
      (processNote fmtIbid fmtShort st d).history =
        st.history.add d.metadata (fmtShort d.metadata)) ∧
    (d.is_explicit_ibid = false →
      (d.metadata.isNone || !(strTruthy d.formatted)) = false →
      ¬(strTruthy d.current_url ∧ strTruthy st.history.get_previous_url ∧
        urls_match d.current_url st.history.get_previous_url) →
      st.history.is_same_as_previous d.metadata = false →
      st.history.has_been_cited_before d.metadata = false →
      (processNote fmtIbid fmtShort st d).history =
        st.history.add d.metadata (d.formatted.getD "")) := by
  intro fi fs st d
  refine ⟨?_, ?_, ?_, ?_, ?_⟩
  · intro hexp
    unfold processNote
    rw [if_pos hexp]
    cases st.history.get_previous_metadata <;> rfl
  · intro hexp hmeta hurl
    unfold processNote
    rw [if_neg (by rw [hexp]; exact Bool.false_ne_true), if_neg (by rw [hmeta]; exact Bool.false_ne_true),
      if_pos hurl]
  · intro hexp hmeta hnurl hsame
    unfold processNote
    rw [if_neg (by rw [hexp]; exact Bool.false_ne_true), if_neg (by rw [hmeta]; exact Bool.false_ne_true),
      if_neg hnurl, if_pos hsame]
  · intro hexp hmeta hnurl hnsame hcited
    unfold processNote
    rw [if_neg (by rw [hexp]; exact Bool.false_ne_true), if_neg (by rw [hmeta]; exact Bool.false_ne_true),
      if_neg hnurl, if_neg (by rw [hnsame]; exact Bool.false_ne_true), if_pos hcited]
  · intro hexp hmeta hnurl hnsame hncited
    unfold processNote
    rw [if_neg (by rw [hexp]; exact Bool.false_ne_true), if_neg (by rw [hmeta]; exact Bool.false_ne_true),
      if_neg hnurl, if_neg (by rw [hnsame]; exact Bool.false_ne_true),
      if_neg (by rw [hncited]; exact Bool.false_ne_true)]

/-- Witness for the C3 theorem: each of the five classifications at a
concrete state and note. -/
theorem citation_form_engine_history_effects_witness :
    (processNote (fun _ => "Ibid.") (fun _ => "Short.")
      { history := CitationHistory.empty.add (some { title := some "Alpha" }) "FullA." }
      { note_id := "1", note_type := "endnote", original_text := "ibid.",
        is_explicit_ibid := true, ibid_page := none, metadata := none,
        formatted := none, current_url := none, error := none }).history =
      CitationHistory.empty.add (some { title := some "Alpha" }) "FullA." ∧
    (processNote (fun _ => "Ibid.") (fun _ => "Short.")
      { history := CitationHistory.empty.add (some { url := some "https://a.com" }) "FullU." }
      { note_id := "2", note_type := "endnote", original_text := "See https://A.com/",
        is_explicit_ibid := false, ibid_page := none,
        metadata := some { title := some "Alpha" }, formatted := some "FullA.",
        current_url := some "https://A.com/", error := none }).history =
      CitationHistory.empty.add (some { url := some "https://a.com" }) "FullU." ∧
    (processNote (fun _ => "Ibid.") (fun _ => "Short.")
      { history := CitationHistory.empty.add (some { title := some "Alpha" }) "FullA." }
      { note_id := "3", note_type := "endnote", original_text := "Alpha again",
        is_explicit_ibid := false, ibid_page := none,
        metadata := some { title := some "Alpha" }, formatted := some "FullA2.",
        current_url := none, error := none }).history =
      (CitationHistory.empty.add (some { title := some "Alpha" }) "FullA.").add
        (some { title := some "Alpha" }) "Ibid." ∧
    (processNote (fun _ => "Ibid.") (fun _ => "Short.")
      { history := (CitationHistory.empty.add (some { title := some "Alpha" }) "FullA.").add
          (some { title := some "Beta" }) "FullB." }
      { note_id := "4", note_type := "endnote", original_text := "Alpha again",
        is_explicit_ibid := false, ibid_page := none,
        metadata := some { title := some "Alpha" }, formatted := some "FullA2.",
        current_url := none, error := none }).history =
      ((CitationHistory.empty.add (some { title := some "Alpha" }) "FullA.").add
          (some { title := some "Beta" }) "FullB.").add
        (some { title := some "Alpha" }) "Short." ∧
    (processNote (fun _ => "Ibid.") (fun _ => "Short.") {}
      { note_id := "5", note_type := "endnote", original_text := "Alpha",
        is_explicit_ibid := false, ibid_page := none,
        metadata := some { title := some "Alpha" }, formatted := some "FullA.",
        current_url := none, error := none }).history =
      CitationHistory.empty.add (some { title := some "Alpha" }) "FullA." := by
  refine ⟨?_, ?_, ?_, ?_, ?_⟩
  · exact (citation_form_engine_history_effects _ _ _ _).1 (by decide)
  · exact (citation_form_engine_history_effects _ _ _ _).2.1 (by decide) (by decide) (by decide)
  · exact (citation_form_engine_history_effects _ _ _ _).2.2.1 (by decide) (by decide)
      (by decide) (by decide)
  · exact (citation_form_engine_history_effects _ _ _ _).2.2.2.1 (by decide) (by decide)
      (by decide) (by decide) (by decide)
  · exact (citation_form_engine_history_effects _ _ _ _).2.2.2.2 (by decide) (by decide)
      (by decide) (by decide) (by decide)

/-- Claim C4: an explicit ibid token processed with no previous history
entry keeps the raw text as the emitted text, records an unsuccessful
result with the ibid-without-precedent error, performs no document write
and no history change, and the engine continues with the rest of the
notes. -/
theorem explicit_ibid_without_precedent :
    ∀ (fmtIbid : Option String → String) (fmtShort : Option CitationMetadata → String)
      (st : EngineState) (d : FetchedNote) (rest : List FetchedNote),
    d.is_explicit_ibid = true → st.history.previous = none →
    (processNote fmtIbid fmtShort st d =
      { st with results := st.results ++
          [{ original := d.original_text, formatted := d.original_text,
             metadata := none, url := none, success := false,
             error := some "ibid reference but no previous citation found",
             citation_form := "ibid" }] } ∧
     runEngine fmtIbid fmtShort (d :: rest) st =
       runEngine fmtIbid fmtShort rest (processNote fmtIbid fmtShort st d)) := by
  intro fi fs st d rest hexp hprev
  have hpm : st.history.get_previous_metadata = none := by
    unfold CitationHistory.get_previous_metadata
    rw [hprev]
  constructor
  · unfold processNote
    rw [if_pos hexp, hpm]
  · unfold runEngine
    rw [List.foldl_cons]

/-- Witness for the C4 theorem at a concrete note and empty history. -/
theorem explicit_ibid_without_precedent_witness :
    processNote (fun _ => "Ibid.") (fun _ => "Short.") {}
      { note_id := "1", note_type := "endnote", original_text := "ibid., 45",
        is_explicit_ibid := true, ibid_page := some "45", metadata := none,
        formatted := none, current_url := none, error := none } =
      { ({} : EngineState) with results :=
          ([] : List ProcessedCitation) ++
            [{ original := "ibid., 45", formatted := "ibid., 45",
               metadata := none, url := none, success := false,
               error := some "ibid reference but no previous citation found",
               citation_form := "ibid" }] } ∧
    runEngine (fun _ => "Ibid.") (fun _ => "Short.")
        [{ note_id := "1", note_type := "endnote", original_text := "ibid., 45",
           is_explicit_ibid := true, ibid_page := some "45", metadata := none,
           formatted := none, current_url := none, error := none }] {} =
      runEngine (fun _ => "Ibid.") (fun _ => "Short.") []
        (processNote (fun _ => "Ibid.") (fun _ => "Short.") {}
          { note_id := "1", note_type := "endnote", original_text := "ibid., 45",
            is_explicit_ibid := true, ibid_page := some "45", metadata := none,
            formatted := none, current_url := none, error := none }) :=
  explicit_ibid_without_precedent _ _ {} _ [] (by decide) rfl

/-! ## Claim theorems: the author-date search federation -/

theorem mem_insertByConf {x y : SearchResult} : ∀ {l : List SearchResult},
    (y ∈ insertByConf x l ↔ y = x ∨ y ∈ l)
  | [] => by simp [insertByConf]
  | z :: zs => by
    unfold insertByConf
    by_cases hz : z.confidence < x.confidence
    · rw [if_pos hz]
      simp [List.mem_cons]
    · rw [if_neg hz]
      rw [List.mem_cons, List.mem_cons, mem_insertByConf]
      tauto

theorem mem_sortByConf {y : SearchResult} : ∀ {l : List SearchResult},
    (y ∈ sortByConf l ↔ y ∈ l)
  | [] => by simp [sortByConf]
  | z :: zs => by
    unfold sortByConf
    rw [List.foldr_cons, mem_insertByConf]
    have : y ∈ List.foldr insertByConf [] zs ↔ y ∈ zs := mem_sortByConf
    rw [this, List.mem_cons]

theorem insertByConf_ne_nil (x : SearchResult) : ∀ (l : List SearchResult),
    insertByConf x l ≠ []
  | [] => by simp [insertByConf]
  | z :: zs => by
    unfold insertByConf
    by_cases hz : z.confidence < x.confidence
    · rw [if_pos hz]; simp
    · rw [if_neg hz]; simp

theorem sortByConf_eq_nil_iff {l : List SearchResult} : sortByConf l = [] ↔ l = [] := by
  cases l with
  | nil => simp [sortByConf]
  | cons z zs =>
    unfold sortByConf
    rw [List.foldr_cons]
    simp only [List.cons_ne_nil, iff_false]
    exact insertByConf_ne_nil z _

theorem sortByConf_head_max : ∀ {l : List SearchResult} {b : SearchResult}
    {t : List SearchResult}, sortByConf l = b :: t → ∀ x ∈ l, x.confidence ≤ b.confidence
  | [], b, t, h => by simp [sortByConf] at h
  | z :: zs, b, t, h => by
    intro x hx
    unfold sortByConf at h
    rw [List.foldr_cons] at h
    cases hs : List.foldr insertByConf [] zs with
    | nil =>
      rw [hs] at h
      unfold insertByConf at h
      rw [List.cons.injEq] at h
      have hznil : zs = [] := sortByConf_eq_nil_iff.mp hs
      subst hznil
      rcases List.mem_singleton.mp hx with rfl
      rw [h.1]
    | cons b' t' =>
      rw [hs] at h
      unfold insertByConf at h
      by_cases hz : b'.confidence < z.confidence
      · rw [if_pos hz] at h
        rw [List.cons.injEq] at h
        rcases List.mem_cons.mp hx with rfl | hx'
        · rw [h.1]
        · have := sortByConf_head_max (l := zs) (by unfold sortByConf; exact hs) x hx'
          rw [← h.1]
          omega
      · rw [if_neg hz] at h
        rw [List.cons.injEq] at h
        rcases List.mem_cons.mp hx with rfl | hx'
        · rw [← h.1]
          omega
        · have := sortByConf_head_max (l := zs) (by unfold sortByConf; exact hs) x hx'
          rw [← h.1]
          omega

/-- Claim C5 counterexample: for the year sentinel `"n.d."` the search
returns `None` immediately; no provider returns a result and yet the
contextual-guessing oracle is *not* invoked, refuting the claim that the
oracle runs whenever no provider returned a result. -/
theorem search_nd_counterexample :
    (searchModel "Smith" "n.d." [] []).1 = none ∧
    (searchModel "Smith" "n.d." [] []).2 = false := by
  decide

/-- Claim C5 (amended): provided the queried year is not the sentinel
`"n.d."`, `AuthorDateEngine.search` returns the metadata of the
highest-confidence provider result without invoking the oracle iff the
top provider confidence is at least `0.6` (60 hundredths); otherwise
(top confidence below the threshold, or no provider result at all) the
oracle is invoked and the best overall result (or `None`) is returned.
For `"n.d."` the search returns `None` before consulting providers or
the oracle. -/
theorem search_threshold_oracle :
    ∀ (author year : String) (provider claude : List SearchResult),
    year ≠ "n.d." →
    (((searchModel author year provider claude).2 = false ↔
       ∃ b t, sortByConf provider = b :: t ∧ b.confidence ≥ 60) ∧
     (∀ b t, sortByConf provider = b :: t → b.confidence ≥ 60 →
       ((searchModel author year provider claude).1 =
          some { b.metadata with raw_source := some (rawEcho author year) } ∧
        b ∈ provider ∧ (∀ x ∈ provider, x.confidence ≤ b.confidence))) ∧
     ((searchModel author year provider claude).2 = true →
       ((provider = [] ∧ claude = [] ∧
          (searchModel author year provider claude).1 = none) ∨
        (∃ b, b ∈ provider ++ claude ∧
          (searchModel author year provider claude).1 =
            some { b.metadata with raw_source := some (rawEcho author year) } ∧
          (∀ x ∈ provider ++ claude, x.confidence ≤ b.confidence))))) := by
  intro author year provider claude hynd
  unfold searchModel
  rw [if_neg hynd]
  cases hs : sortByConf provider with
  | nil =>
    have hpnil : provider = [] := sortByConf_eq_nil_iff.mp hs
    cases hc : sortByConf claude with
    | nil =>
      have hcnil : claude = [] := sortByConf_eq_nil_iff.mp hc
      dsimp only
      refine ⟨⟨(fun hf => nomatch hf), ?_⟩, ?_, ?_⟩
      · rintro ⟨b, t, hbt, -⟩
        exact absurd hbt (by simp)
      · intro b t hbt
        exact absurd hbt (by simp)
      · intro hdum
        exact Or.inl ⟨hpnil, hcnil, rfl⟩
    | cons b2 t2 =>
      dsimp only
      refine ⟨⟨(fun hf => nomatch hf), ?_⟩, ?_, ?_⟩
      · rintro ⟨b, t, hbt, -⟩
        exact absurd hbt (by simp)
      · intro b t hbt
        exact absurd hbt (by simp)
      · intro hdum
        refine Or.inr ⟨b2, ?_, rfl, ?_⟩
        · subst hpnil
          simp only [List.nil_append]
          exact mem_sortByConf.mp (hc ▸ List.mem_cons_self _ _)
        · intro x hx
          subst hpnil
          simp only [List.nil_append] at hx
          exact sortByConf_head_max hc x hx
  | cons best rest =>
    dsimp only
    by_cases hconf : best.confidence ≥ 60
    · rw [if_pos hconf]
      refine ⟨iff_of_true rfl ⟨best, rest, rfl, hconf⟩, ?_, ?_⟩
      · intro b t hbt hge
        rw [List.cons.injEq] at hbt
        refine ⟨by rw [hbt.1], ?_, ?_⟩
        · rw [← hbt.1]
          exact mem_sortByConf.mp (hs ▸ List.mem_cons_self _ _)
        · intro x hx
          rw [← hbt.1]
          exact sortByConf_head_max hs x hx
      · intro hf
        exact absurd hf (by simp)
    · rw [if_neg hconf]
      have hmemiff : ∀ x : SearchResult,
          (x ∈ (best :: rest) ++ claude ↔ x ∈ provider ++ claude) := by
        intro x
        rw [List.mem_append, List.mem_append, ← hs, mem_sortByConf]
      cases hc2 : sortByConf ((best :: rest) ++ claude) with
      | nil =>
        have hnil2 := sortByConf_eq_nil_iff.mp hc2
        exact absurd hnil2 (by simp)
      | cons b2 t2 =>
        dsimp only
        refine ⟨?_, ?_, ?_⟩
        · refine iff_of_false (by simp) ?_
          rintro ⟨b, t, hbt, hge⟩
          rw [List.cons.injEq] at hbt
          rw [← hbt.1] at hge
          exact hconf hge
        · intro b t hbt hge
          rw [List.cons.injEq] at hbt
          rw [← hbt.1] at hge
          exact absurd hge hconf
        · intro hdum
          refine Or.inr ⟨b2, ?_, rfl, ?_⟩
          · exact (hmemiff b2).mp (mem_sortByConf.mp (hc2 ▸ List.mem_cons_self _ _))
          · intro x hx
            exact sortByConf_head_max hc2 x ((hmemiff x).mpr hx)

/-- Witness for the amended C5 theorem: a provider confidence of exactly
`0.6` is accepted without invoking the oracle, while `0.59` triggers the
oracle fallback. -/
theorem search_threshold_oracle_witness :
    (searchModel "Smith" "1999"
      [{ metadata := { title := some "T" }, confidence := 60, match_reason := "m" }]
      []).2 = false ∧
    (searchModel "Smith" "1999"
      [{ metadata := { title := some "T" }, confidence := 59, match_reason := "m" }]
      []).2 = true := by
  constructor
  · exact ((search_threshold_oracle "Smith" "1999"
      [{ metadata := { title := some "T" }, confidence := 60, match_reason := "m" }]
      [] (by decide)).1).mpr ⟨_, _, rfl, by decide⟩
  · decide

/-! ## Claim theorem: the confidence formula -/

/-- The year component of the specified confidence formula (in
hundredths): 0.30 for an exact match, else 0.20 when both years parse as
integers at most 1 apart. -/
def yearScore (m : CitationMetadata) (year : String) : Nat :=
  if m.year = some year then 30
  else
    match (match m.year with | some ys => pyInt? ys | none => none), pyInt? year with
    | some a, some b => if (a - b).natAbs ≤ 1 then 20 else 0
    | _, _ => 0

/-- 0.30 when the lowercased queried surname is a substring of some
lowercased returned author. -/
def authorScore (m : CitationMetadata) (author : String) : Nat :=
  if m.authors.any (fun a => strIn (pyLower author) (pyLower a)) then 30 else 0

/-- 0.15 when a second author was supplied and substring-matches. -/
def secondAuthorScore (m : CitationMetadata) (second_author : Option String) : Nat :=
  if strTruthy second_author then
    (if m.authors.any (fun a => strIn (pyLower (second_author.getD "")) (pyLower a))
     then 15 else 0)
  else 0

/-- 0.15 when a DOI is present. -/
def doiScore (m : CitationMetadata) : Nat := if strTruthy m.doi then 15 else 0

/-- 0.05 per completeness dimension: title; journal or publisher; volume
or pages. -/
def completenessScore (m : CitationMetadata) : Nat :=
  (if strTruthy m.title then 5 else 0) +
    (if strTruthy m.journal ∨ strTruthy m.publisher then 5 else 0) +
    (if strTruthy m.volume ∨ strTruthy m.pages then 5 else 0)

set_option maxHeartbeats 2000000 in
/-- Claim C6: `_calculate_confidence` equals the additive specification
formula, clamped above at 1 (100 hundredths). -/
theorem calculate_confidence_formula :
    ∀ (m : CitationMetadata) (author year : String) (second_author : Option String),
    calculate_confidence m author year second_author =
      min 100 (yearScore m year + authorScore m author +
        secondAuthorScore m second_author + doiScore m + completenessScore m) := by
  intro m author year second_author
  unfold calculate_confidence yearScore authorScore secondAuthorScore doiScore
    completenessScore
  simp only [List.any_map, Function.comp_def]
  congr 1
  by_cases hauth : m.authors = []
  · rw [if_neg (show ¬(m.authors ≠ []) from by simp [hauth])]
    simp only [hauth, List.any_nil, Bool.false_eq_true, if_false]
    cases hy : m.year with
    | none =>
      simp only [Option.getD, show strTruthy (none : Option String) = false from rfl,
        show ((none : Option String) = some year) = False from by simp, if_false,
        Bool.false_eq_true]
      split_ifs <;> omega
    | some ys =>
      by_cases hyeq : ys = year
      · subst hyeq
        simp only [if_pos rfl]
        split_ifs <;> omega
      · have hne2 : ((some ys : Option String) = some year) = False := by simp [hyeq]
        simp only [hne2, if_false]
        by_cases hys : ys = ""
        · subst hys
          simp only [show strTruthy (some "") = false from rfl, Bool.false_eq_true,
            if_false, show pyInt? "" = none from rfl, Option.getD]
          split_ifs <;> omega
        · have hst : strTruthy (some ys) = true := by simpa [strTruthy] using hys
          simp only [hst, if_true, Option.getD]
          cases hpa : pyInt? ys <;> cases hpb : pyInt? year <;> dsimp only <;>
            split_ifs <;> omega
  · rw [if_pos hauth]
    cases hy : m.year with
    | none =>
      simp only [Option.getD, show strTruthy (none : Option String) = false from rfl,
        show ((none : Option String) = some year) = False from by simp, if_false,
        Bool.false_eq_true]
      split_ifs <;> omega
    | some ys =>
      by_cases hyeq : ys = year
      · subst hyeq
        simp only [if_pos rfl]
        split_ifs <;> omega
      · have hne2 : ((some ys : Option String) = some year) = False := by simp [hyeq]
        simp only [hne2, if_false]
        by_cases hys : ys = ""
        · subst hys
          simp only [show strTruthy (some "") = false from rfl, Bool.false_eq_true,
            if_false, show pyInt? "" = none from rfl, Option.getD]
          split_ifs <;> omega
        · have hst : strTruthy (some ys) = true := by simpa [strTruthy] using hys
          simp only [hst, if_true, Option.getD]
          cases hpa : pyInt? ys <;> cases hpb : pyInt? year <;> dsimp only <;>
            split_ifs <;> omega

/-- A string of digit/dash characters is unchanged by stripping. -/
theorem pyStrip_mk_dd {pg : List Char} (hdd : ∀ c ∈ pg, ddChar c) :
    pyStrip (String.mk pg) = String.mk pg := by
  unfold pyStrip
  have ht : (String.mk pg).toList = pg := rfl
  rw [ht, pyStripList_dd hdd]

/-- Claim C7 counterexample: `"ibid at"` (separator `at` with no following
page range) is rejected by the source recognizer because `at` in
`IBID_PATTERN` requires trailing whitespace, yet the claimed grammar
accepts it; conversely `"ibid, p 45"` (page marker `p` without a period
before the range) is accepted by the source recognizer, where the claimed
grammar lists only `p.`/`pp.`. -/
theorem ibid_recognizer_counterexample :
    is_ibid "ibid at" = false ∧ claim_ibid_grammar "ibid at" = true ∧
      is_ibid "ibid, p 45" = true ∧ claim_ibid_grammar "ibid, p 45" = false := by
  decide

/-- Claim C7 (amended): for every input string, `is_ibid` returns `true`
exactly when the stripped, lowercased text decomposes as head token
(`ibid`, `ibid.`, `ibidem`, `ibidem.`, `id`, `id.`), optional whitespace,
an optional separator (`,`/`.` plus whitespace, or `at` plus at least one
whitespace character, or whitespace alone), an optional page marker `p`
or `pp` with optional period and whitespace, an optional page range
`digits [dash [digits]]`, and an optional final period; and
`extract_ibid_page` returns exactly the page-range component when it is
nonempty, and `none` otherwise.  Neither function can raise. -/
theorem ibid_recognizer_characterization (s : String) :
    (is_ibid s = true ↔ ∃ pg, IbidDecomp ((pyLower (pyStrip s)).toList) pg) ∧
    ∀ p, (extract_ibid_page s = some p ↔
      ∃ pg, pg ≠ [] ∧ IbidDecomp ((pyLower (pyStrip s)).toList) pg ∧
        p = String.mk pg) := by
  by_cases hs : s = ""
  · subst hs
    have hnil : ((pyLower (pyStrip "")).toList : List Char) = [] := rfl
    constructor
    · rw [hnil]
      constructor
      · intro h
        rw [is_ibid, if_pos rfl] at h
        exact absurd h (by decide)
      · rintro ⟨pg, hD⟩
        exact absurd hD IbidDecomp_nil_false
    · intro p
      rw [hnil]
      constructor
      · intro h
        rw [extract_ibid_page, if_pos rfl] at h
        exact Option.noConfusion h
      · rintro ⟨pg, -, hD, -⟩
        exact absurd hD IbidDecomp_nil_false
  · constructor
    · rw [is_ibid, if_neg hs, pyIbidMatch]
      exact ibidMatchList_isSome_iff _
    · intro p
      rw [extract_ibid_page, if_neg hs, pyIbidMatch]
      cases hm : ibidMatchList ((pyLower (pyStrip s)).toList) with
      | none =>
        dsimp only
        constructor
        · intro h
          exact Option.noConfusion h
        · rintro ⟨pg, hne, hD, rfl⟩
          have hc := ibidMatch_complete hD
          rw [hm] at hc
          simp at hc
      | some cap =>
        cases cap with
        | none =>
          dsimp only
          constructor
          · intro h
            exact Option.noConfusion h
          · rintro ⟨pg, hne, hD, rfl⟩
            obtain ⟨pg0, hD0, hcap⟩ := ibidMatch_sound hm
            have hpe : pg0 = pg := IbidDecomp_page_unique hD0 hD
            subst hpe
            rw [if_neg (by simpa using hne)] at hcap
            exact Option.noConfusion hcap
        | some pg =>
          dsimp only
          obtain ⟨pg0, hD0, hcap⟩ := ibidMatch_sound hm
          by_cases h0 : pg0.isEmpty
          · rw [if_pos h0] at hcap
            exact absurd hcap (by simp)
          · rw [if_neg h0] at hcap
            rw [Option.some.injEq] at hcap
            subst hcap
            have hne : pg ≠ [] := by simpa using h0
            have hpage : pageOkP pg := by
              obtain ⟨hd, w, sl, pl, d, -, -, -, -, hpg, -, -⟩ := hD0
              rcases hpg with rfl | hpg
              · exact absurd rfl hne
              · exact hpg
            have hdd := page_all_dd hpage
            have hstr : pyStrip (String.mk pg) = String.mk pg := pyStrip_mk_dd hdd
            rw [if_pos (show ¬pg.isEmpty = true from by simpa using hne)]
            rw [hstr]
            constructor
            · intro h
              rw [Option.some.injEq] at h
              exact ⟨pg, hne, hD0, h.symm⟩
            · rintro ⟨pg2, hne2, hD2, rfl⟩
              have hpe2 : pg2 = pg := IbidDecomp_page_unique hD2 hD0
              rw [hpe2]

/-- Claim C8 counterexample: the two URLs `https://Example.com/` and
`https://example.com` are equal under the `urls_match` normalization,
yet the link activator's relationship-level matching (the per-file URL
cache and `RelsManager.add_hyperlink`) compares raw strings, so a
document containing both receives two distinct relationship IDs and two
relationship entries, not one. -/
theorem link_url_normalization_counterexample :
    urls_match (some "https://Example.com/") (some "https://example.com") = true ∧
    (processUrls ["https://Example.com/", "https://example.com"] [] {}).1 =
      ["rId1", "rId2"] ∧
    ((processUrls ["https://Example.com/", "https://example.com"] [] {}).2.2
      |>.relationships).length = 2 := by
  decide

/-- Claim C8 (amended): relationship-level URL matching is by exact string
equality.  Processing the same raw URL twice yields the first rId twice
and leaves the sidecar state of the first step unchanged; processing two
distinct raw strings in a fresh part mints `rId1` and `rId2` and creates
two hyperlink relationship entries, regardless of whether the two strings
normalize to the same target. -/
theorem link_relationship_exact_matching :
    (∀ (cache : List (String × String)) (st : RelsState) (u : String),
      (processUrls [u, u] cache st).1 =
        [(ridForUrl cache st u).1, (ridForUrl cache st u).1] ∧
      (processUrls [u, u] cache st).2.2 = (ridForUrl cache st u).2.2) ∧
    (∀ u1 u2 : String, u1 ≠ u2 →
      (processUrls [u1, u2] [] {}).1 = ["rId1", "rId2"] ∧
      ((processUrls [u1, u2] [] {}).2.2).relationships =
        [("rId1", { rtype := HYPERLINK_TYPE, target := u1, mode := "External" }),
         ("rId2", { rtype := HYPERLINK_TYPE, target := u2, mode := "External" })]) := by
  constructor
  · intro cache st u
    simp only [processUrls, ridForUrl]
    cases hcl : cache.lookup u with
    | some rid => simp [hcl]
    | none =>
      simp only [hcl]
      cases hsl : st.url_to_rid.lookup u with
      | some rid =>
        simp only [add_hyperlink, hsl]
        have h2 : (cache ++ [(u, rid)]).lookup u = some rid := by
          rw [lookup_append_single, hcl]
          simp
        simp [h2]
      | none =>
        simp only [add_hyperlink, hsl]
        have h2 : (cache ++ [(u, "rId" ++ toString st.next_id)]).lookup u =
            some ("rId" ++ toString st.next_id) := by
          rw [lookup_append_single, hcl]
          simp
        simp [h2]
  · intro u1 u2 hne
    have hb : (u2 == u1) = false := by
      rw [beq_eq_false_iff_ne]
      exact fun h => hne h.symm
    simp only [processUrls, ridForUrl, add_hyperlink, List.lookup, hb, List.lookup_nil]
    have h1 : "rId" ++ toString 1 = "rId1" := by decide
    have h2 : "rId" ++ toString (1 + 1) = "rId2" := by decide
    rw [h1, h2]
    exact ⟨rfl, rfl⟩

/-- Witness for the amended C8 theorem at concrete URLs. -/
theorem link_relationship_exact_matching_witness :
    (processUrls ["https://a.com", "https://a.com"] [] {}).1 =
      [(ridForUrl [] {} "https://a.com").1, (ridForUrl [] {} "https://a.com").1] ∧
    (processUrls ["https://Example.com/", "https://example.com"] [] {}).1 =
      ["rId1", "rId2"] :=
  ⟨(link_relationship_exact_matching.1 [] {} "https://a.com").1,
   (link_relationship_exact_matching.2 "https://Example.com/" "https://example.com"
      (by decide)).1⟩

/-! ## Lemmas for the references-heading recognizer -/

theorem pySpace_false_of_ge {x : Char} (hx : 65 ≤ x.toNat) : pySpace x = false := by
  cases hps : pySpace x
  · rfl
  · exfalso
    unfold pySpace at hps
    have h6 : ((((x = ' ' ∨ x = '\t') ∨ x = '\n') ∨ x = '\x0d') ∨ x = '\x0b') ∨ x = '\x0c' := by
      simpa using hps
    rcases h6 with ((((rfl | rfl) | rfl) | rfl) | rfl) | rfl <;> exact absurd hx (by decide)

theorem char_le_toNat {a b : Char} (h : a ≤ b) : a.toNat ≤ b.toNat := h

theorem pySpace_lcChar (c : Char) : pySpace (lcChar c) = pySpace c := by
  unfold lcChar
  by_cases h : 'A' ≤ c ∧ c ≤ 'Z'
  · rw [if_pos h]
    have hlo : 65 ≤ c.toNat := char_le_toNat h.1
    have hhi : c.toNat ≤ 90 := char_le_toNat h.2
    have htoNat : (Char.ofNat (c.toNat + 32)).toNat = c.toNat + 32 := by
      unfold Char.ofNat
      have hv : Nat.isValidChar (c.toNat + 32) := by
        left
        omega
      rw [dif_pos hv]
      simp [Char.ofNatAux, Char.toNat, UInt32.toNat, BitVec.toNat_ofNatLt]
    rw [pySpace_false_of_ge hlo, pySpace_false_of_ge (x := Char.ofNat (c.toNat + 32)) (by omega)]
  · rw [if_neg h]

theorem head_dropWhile_false {p : Char → Bool} :
    ∀ (xs : List Char) {c : Char}, (xs.dropWhile p).head? = some c → p c = false
  | [], c, h => by simp [List.dropWhile] at h
  | x :: xs, c, h => by
    rw [List.dropWhile_cons] at h
    by_cases hp : p x = true
    · rw [if_pos hp] at h
      exact head_dropWhile_false xs h
    · rw [if_neg hp] at h
      rw [List.head?_cons, Option.some.injEq] at h
      subst h
      simpa using hp

theorem pyStripList_getLast_not_space {l : List Char} {c : Char}
    (h : (pyStripList l).getLast? = some c) : pySpace c = false := by
  unfold pyStripList at h
  rw [List.getLast?_reverse] at h
  exact head_dropWhile_false _ h

theorem toList_inj {a b : String} (h : a.toList = b.toList) : a = b := by
  cases a
  cases b
  exact congrArg String.mk h

theorem stripped_lower_no_trail (s : String) {c : Char}
    (h : ((pyLower (pyStrip s)).toList).getLast? = some c) : pySpace c = false := by
  have ht : (pyLower (pyStrip s)).toList = (pyStripList s.toList).map lcChar := rfl
  rw [ht, List.getLast?_map] at h
  cases hg : (pyStripList s.toList).getLast? with
  | none => rw [hg] at h; exact Option.noConfusion h
  | some c0 =>
    rw [hg] at h
    rw [Option.map_some'] at h
    rw [Option.some.injEq] at h
    subst h
    rw [pySpace_lcChar]
    exact pyStripList_getLast_not_space hg

theorem drop_all_space_nil {l rest : List Char} (k : Nat)
    (hdrop : l.drop k = rest) (hall : rest.all pySpace = true)
    (hlast : ∀ c, l.getLast? = some c → pySpace c = false) : rest = [] := by
  cases hrest : rest with
  | nil => rfl
  | cons r rs =>
    exfalso
    have hne : rest ≠ [] := by rw [hrest]; exact List.cons_ne_nil r rs
    have hl : l = l.take k ++ rest := by rw [← hdrop, List.take_append_drop]
    have hlg : l.getLast? = rest.getLast? := by
      rw [hl]
      exact List.getLast?_append_of_ne_nil _ hne
    obtain ⟨c, hc⟩ := Option.isSome_iff_exists.mp (List.getLast?_isSome.mpr hne)
    have hmem : c ∈ rest := by
      have := List.getLast?_eq_getLast rest hne
      rw [hc] at this
      rw [Option.some.injEq] at this
      rw [this]
      exact List.getLast_mem hne
    have hsp : pySpace c = true := List.all_eq_true.mp hall c hmem
    have : pySpace c = false := hlast c (by rw [hlg]; exact hc)
    rw [this] at hsp
    exact Bool.false_ne_true hsp

theorem prefix_drop_nil_eq {pre l : List Char} (hpre : pre <+: l)
    (hnil : l.drop pre.length = []) : l = pre := by
  obtain ⟨t, ht⟩ := hpre
  rw [← ht, List.drop_left] at hnil
  rw [← ht, hnil, List.append_nil]

/-- Claim C9 counterexample: the heading regex `^references?\s*$` makes
the trailing `s` optional, so the singular `Reference` is recognized as
an existing references heading even though it is none of the three
claimed strings. -/
theorem references_heading_counterexample :
    is_references_heading "Reference" = true ∧
      pyLower (pyStrip "Reference") = "reference" ∧
      ("reference" ≠ "references" ∧ "reference" ≠ "bibliography" ∧
        "reference" ≠ "references cited") := by
  decide

/-- Claim C9 (amended): a paragraph is recognized as an existing
references heading iff its text, stripped and lowercased, is exactly one
of `references`, `reference`, `bibliography`, or `references cited`. -/
theorem references_heading_characterization (s : String) :
    is_references_heading s = true ↔
      pyLower (pyStrip s) ∈
        (["references", "reference", "bibliography", "references cited"] : List String) := by
  constructor
  · intro h
    rw [is_references_heading] at h
    rw [headingReMatch] at h
    rw [Bool.or_eq_true, Bool.or_eq_true] at h
    simp only [List.mem_cons, List.not_mem_nil, or_false]
    rcases h with (hA | hB) | hC
    · cases hpre : ("reference".toList).isPrefixOf ((pyLower (pyStrip s)).toList) with
      | false => rw [hpre] at hA; exact absurd hA (by simp)
      | true =>
        rw [hpre] at hA
        dsimp only at hA
        rw [Bool.or_eq_true] at hA
        have hpfx := List.isPrefixOf_iff_prefix.mp hpre
        rcases hA with hA1 | hA2
        · have hnil : (pyLower (pyStrip s)).toList.drop 9 = [] :=
            drop_all_space_nil 9 rfl hA1 (fun c hc => stripped_lower_no_trail s hc)
          have he : (pyLower (pyStrip s)).toList = "reference".toList :=
            prefix_drop_nil_eq hpfx hnil
          right; left
          exact toList_inj he
        · cases hdrop : (pyLower (pyStrip s)).toList.drop 9 with
          | nil => rw [hdrop] at hA2; exact absurd hA2 (by simp)
          | cons r rs =>
            rw [hdrop] at hA2
            dsimp only at hA2
            rw [Bool.and_eq_true] at hA2
            obtain ⟨hr, hall⟩ := hA2
            have hr' : r = 's' := by simpa using hr
            subst hr'
            have hdrop10 : List.drop 1 (List.drop 9 (pyLower (pyStrip s)).toList) = rs := by
              rw [hdrop]
              rfl
            rw [List.drop_drop] at hdrop10
            have hnil : rs = [] :=
              drop_all_space_nil (1 + 9) hdrop10 hall
                (fun c hc => stripped_lower_no_trail s hc)
            subst hnil
            obtain ⟨t, ht⟩ := hpfx
            have h1 : List.drop ("reference".toList).length ("reference".toList ++ t) = t :=
              List.drop_left _ _
            rw [ht] at h1
            rw [show ("reference".toList).length = 9 from rfl] at h1
            rw [hdrop] at h1
            rw [← h1] at ht
            left
            apply toList_inj
            rw [← ht]
            rfl
    · rw [decide_eq_true_eq] at hB
      obtain ⟨hpreb, hallb⟩ := hB
      have hpfx := List.isPrefixOf_iff_prefix.mp hpreb
      have hnil : (pyLower (pyStrip s)).toList.drop 12 = [] :=
        drop_all_space_nil 12 rfl hallb (fun c hc => stripped_lower_no_trail s hc)
      have he : (pyLower (pyStrip s)).toList = "bibliography".toList :=
        prefix_drop_nil_eq hpfx hnil
      right; right; left
      exact toList_inj he
    · rw [decide_eq_true_eq] at hC
      obtain ⟨hprec, hallc⟩ := hC
      have hpfx := List.isPrefixOf_iff_prefix.mp hprec
      have hnil : (pyLower (pyStrip s)).toList.drop 16 = [] :=
        drop_all_space_nil 16 rfl hallc (fun c hc => stripped_lower_no_trail s hc)
      have he : (pyLower (pyStrip s)).toList = "references cited".toList :=
        prefix_drop_nil_eq hpfx hnil
      right; right; right
      exact toList_inj he
  · intro h
    rw [is_references_heading]
    simp only [List.mem_cons, List.not_mem_nil, or_false] at h
    rcases h with h | h | h | h <;> rw [h] <;> decide

/-- Claim C10: the exception barrier of `LinkActivator.process`.  When
the attempted extract/rewrite/repackage pipeline raises (modelled as
`Except.error`), the function swallows the exception and returns the
original buffer bytes rewound to position 0; when it succeeds, the
repackaged bytes are returned, also rewound.  Link activation is thus a
success-or-no-op on the document content. -/
theorem link_activator_exception_barrier :
    ∀ (buf : BytesBuf) (attempt : List Nat → Except String (List Nat)),
      (∀ e, attempt buf.data = .error e →
        LinkActivator_process buf attempt = { data := buf.data, pos := 0 }) ∧
      (∀ out, attempt buf.data = .ok out →
        LinkActivator_process buf attempt = { data := out, pos := 0 }) := by
  intro buf attempt
  constructor
  · intro e he
    unfold LinkActivator_process
    rw [he]
  · intro out ho
    unfold LinkActivator_process
    rw [ho]

/-- Witness for the C10 theorem at a concrete buffer, with one failing
and one succeeding pipeline. -/
theorem link_activator_exception_barrier_witness :
    LinkActivator_process ⟨[1, 2, 3], 5⟩ (fun _ => .error "boom") = ⟨[1, 2, 3], 0⟩ ∧
    LinkActivator_process ⟨[1, 2, 3], 5⟩ (fun d => .ok (0 :: d)) = ⟨[0, 1, 2, 3], 0⟩ :=
  ⟨(link_activator_exception_barrier ⟨[1, 2, 3], 5⟩ (fun _ => .error "boom")).1 "boom" rfl,
   (link_activator_exception_barrier ⟨[1, 2, 3], 5⟩ (fun d => .ok (0 :: d))).2
      [0, 1, 2, 3] rfl⟩
